import Mathlib

/-!
Verification of the concurrent data-exchange core of the MusicPlayer
repository: the two circular byte-buffer implementations in
`src/utils/Buffer.{h,cpp}` (one tracking a full-flag with byte-by-byte
copies, one tracking an explicit occupied-count with two-phase block
copies) and the mutex/condition-variable `ThreadSafeQueue` in
`src/utils/ThreadSafeQueue.h`.

Each operation holds the instance's mutex for its whole body, so the
sequential (atomic-step) semantics embedded here is the program's
behaviour; bytes are modelled as `Nat`, `std::vector<uint8_t>` as
`List Nat`, and `std::memcpy` as an explicit element-wise copy.
-/

namespace MediaPlayer

/-! ## Full-flag variant of `Utils::Buffer`
    (Buffer.cpp using `mHead`/`mTail`/`mIsFull`, byte-by-byte loops). -/

namespace FullFlag

/-- State of the full-flag `Utils::Buffer`: storage vector, write index
`mHead`, read index `mTail`, the `mIsFull` flag and `mCapacity`. -/
structure Buffer where
  mBuffer : List Nat
  mHead : Nat
  mTail : Nat
  mIsFull : Bool
  mCapacity : Nat
deriving Repr, DecidableEq

/-- `Buffer::Buffer(size_t capacityBytes)`: zero-filled storage, both
indices 0, not full. -/
def Buffer.init (capacityBytes : Nat) : Buffer :=
  { mBuffer := List.replicate capacityBytes 0
    mHead := 0
    mTail := 0
    mIsFull := false
    mCapacity := capacityBytes }

/-- `Buffer::getAvailableInternal` (no lock): full ⇒ capacity; else
`mHead - mTail` or wrapped `mCapacity - mTail + mHead`. -/
def Buffer.getAvailableInternal (s : Buffer) : Nat :=
  if s.mIsFull then s.mCapacity
  else if s.mHead ≥ s.mTail then s.mHead - s.mTail
  else s.mCapacity - s.mTail + s.mHead

/-- `Buffer::isFullInternal`. -/
def Buffer.isFullInternal (s : Buffer) : Bool := s.mIsFull

/-- `Buffer::isEmptyInternal`. -/
def Buffer.isEmptyInternal (s : Buffer) : Bool :=
  !s.mIsFull && (s.mHead == s.mTail)

/-- The byte-by-byte copy loop of `Buffer::write`:
`for i in [0,toWrite): mBuffer[mHead] = data[i]; mHead = (mHead+1) % mCapacity`.
Returns the updated storage and head index. -/
def writeLoop (buf : List Nat) (head cap : Nat) : List Nat → List Nat × Nat
  | [] => (buf, head)
  | b :: rest => writeLoop (buf.set head b) ((head + 1) % cap) cap rest

/-- The byte-by-byte copy loop of `Buffer::read`:
`for i in [0,toRead): dest[i] = mBuffer[mTail]; mTail = (mTail+1) % mCapacity`.
Returns the bytes delivered to `dest` and the updated tail index. -/
def readLoop (buf : List Nat) (tail cap : Nat) : Nat → List Nat × Nat
  | 0 => ([], tail)
  | n + 1 =>
    let b := buf.getD tail 0
    let r := readLoop buf ((tail + 1) % cap) cap n
    (b :: r.1, r.2)

/-- `Buffer::write(data, len)` with `len = data.length`: clamps to free
space, copies byte-by-byte advancing `mHead` mod capacity, sets `mIsFull`
when the new head meets the tail, returns bytes written. -/
def Buffer.write (s : Buffer) (data : List Nat) : Buffer × Nat :=
  let freeSpace := s.mCapacity - s.getAvailableInternal
  let toWrite := min data.length freeSpace
  if toWrite = 0 then (s, 0)
  else
    let r := writeLoop s.mBuffer s.mHead s.mCapacity (data.take toWrite)
    ({ s with
        mBuffer := r.1
        mHead := r.2
        mIsFull := if r.2 = s.mTail then true else s.mIsFull },
      toWrite)

/-- `Buffer::read(dest, len)`: clamps to available bytes, copies
byte-by-byte advancing `mTail` mod capacity, clears `mIsFull`, returns
the bytes delivered and their count. -/
def Buffer.read (s : Buffer) (len : Nat) : Buffer × List Nat × Nat :=
  let toRead := min len s.getAvailableInternal
  if toRead = 0 then (s, [], 0)
  else
    let r := readLoop s.mBuffer s.mTail s.mCapacity toRead
    ({ s with mTail := r.2, mIsFull := false }, r.1, toRead)

/-- `Buffer::clear()`: resets `mHead`, `mTail`, `mIsFull` (storage is
left as is). -/
def Buffer.clear (s : Buffer) : Buffer :=
  { s with mHead := 0, mTail := 0, mIsFull := false }

/-- `Buffer::available()`. -/
def Buffer.available (s : Buffer) : Nat := s.getAvailableInternal

/-- `Buffer::capacity()`. -/
def Buffer.capacity (s : Buffer) : Nat := s.mCapacity

end FullFlag

/-! ## Occupied-count variant of `Utils::Buffer`
    (Buffer.cpp using `m_readPos`/`m_writePos`/`m_dataAvailable`,
    two-phase `memcpy` block copies). -/

namespace OccCount

/-- State of the occupied-count `Utils::Buffer`. -/
structure Buffer where
  m_buffer : List Nat
  m_readPos : Nat
  m_writePos : Nat
  m_dataAvailable : Nat
  m_capacity : Nat
deriving Repr, DecidableEq

/-- `Buffer::Buffer(size_t size)`: zero-filled storage, positions and
count 0. -/
def Buffer.init (size : Nat) : Buffer :=
  { m_buffer := List.replicate size 0
    m_readPos := 0
    m_writePos := 0
    m_dataAvailable := 0
    m_capacity := size }

/-- Model of `std::memcpy(&buf[pos], src, src.length)`: copy `src` into
`buf` starting at index `pos` (no wrap-around). -/
def setRange (buf : List Nat) (pos : Nat) : List Nat → List Nat
  | [] => buf
  | b :: rest => setRange (buf.set pos b) (pos + 1) rest

/-- `Buffer::write(data, len)`: clamps to `m_capacity - m_dataAvailable`,
copies `chunk1` bytes up to the physical end then wraps the remainder to
offset 0, advances `m_writePos` mod capacity, adds to
`m_dataAvailable`, returns bytes written. -/
def Buffer.write (s : Buffer) (data : List Nat) : Buffer × Nat :=
  let freeSpace := s.m_capacity - s.m_dataAvailable
  let toWrite := min data.length freeSpace
  if toWrite = 0 then (s, 0)
  else
    let spaceAtEnd := s.m_capacity - s.m_writePos
    let chunk1 := min toWrite spaceAtEnd
    let buf1 := setRange s.m_buffer s.m_writePos (data.take chunk1)
    let buf2 :=
      if chunk1 < toWrite then
        setRange buf1 0 ((data.drop chunk1).take (toWrite - chunk1))
      else buf1
    ({ s with
        m_buffer := buf2
        m_writePos := (s.m_writePos + toWrite) % s.m_capacity
        m_dataAvailable := s.m_dataAvailable + toWrite },
      toWrite)

/-- `Buffer::read(dest, len)`: clamps to `m_dataAvailable`, copies
`chunk1` bytes up to the physical end then wraps to offset 0, advances
`m_readPos` mod capacity, subtracts from `m_dataAvailable`; returns the
bytes delivered and their count. -/
def Buffer.read (s : Buffer) (len : Nat) : Buffer × List Nat × Nat :=
  let toRead := min len s.m_dataAvailable
  if toRead = 0 then (s, [], 0)
  else
    let dataAtEnd := s.m_capacity - s.m_readPos
    let chunk1 := min toRead dataAtEnd
    let out1 := (s.m_buffer.drop s.m_readPos).take chunk1
    let out :=
      if chunk1 < toRead then out1 ++ s.m_buffer.take (toRead - chunk1)
      else out1
    ({ s with
        m_readPos := (s.m_readPos + toRead) % s.m_capacity
        m_dataAvailable := s.m_dataAvailable - toRead },
      out, toRead)

/-- `Buffer::getAvailable()`. -/
def Buffer.getAvailable (s : Buffer) : Nat := s.m_dataAvailable

/-- `Buffer::getFreeSpace()`. -/
def Buffer.getFreeSpace (s : Buffer) : Nat :=
  s.m_capacity - s.m_dataAvailable

/-- `Buffer::clear()`: resets the positions and the count. -/
def Buffer.clear (s : Buffer) : Buffer :=
  { s with m_readPos := 0, m_writePos := 0, m_dataAvailable := 0 }

end OccCount

/-! ## `Utils::ThreadSafeQueue<T>` (std::queue + mutex + condvar).
    Every method holds `mMutex` for its body, so methods are atomic
    steps on the underlying `std::queue`, modelled as a list with its
    front at the list head. -/

/-- State of `Utils::ThreadSafeQueue<T>`: the protected `std::queue`. -/
structure ThreadSafeQueue (T : Type) where
  mQueue : List T
deriving Repr, DecidableEq

namespace ThreadSafeQueue

/-- A default-constructed queue (empty). -/
def init (T : Type) : ThreadSafeQueue T := ⟨[]⟩

/-- `push(value)`: appends at the back, notifies one waiter. -/
def push (s : ThreadSafeQueue T) (value : T) : ThreadSafeQueue T :=
  ⟨s.mQueue ++ [value]⟩

/-- `tryPop(value)`: empty ⇒ `false` and no change; otherwise moves the
front out and pops it. `some v` models `found = true` with `value = v`. -/
def tryPop (s : ThreadSafeQueue T) : ThreadSafeQueue T × Option T :=
  match s.mQueue with
  | [] => (s, none)
  | x :: xs => (⟨xs⟩, some x)

/-- `waitAndPop(value)` once the wait `!mQueue.empty()` has passed:
moves the front out and pops it. Only defined (enabled) on a non-empty
queue; a caller on an empty queue stays suspended. -/
def waitAndPop (s : ThreadSafeQueue T) : ThreadSafeQueue T × Option T :=
  match s.mQueue with
  | [] => (s, none)
  | x :: xs => (⟨xs⟩, some x)

/-- `empty()`. -/
def empty (s : ThreadSafeQueue T) : Bool := s.mQueue.isEmpty

end ThreadSafeQueue

/-! ## Arithmetic and list helpers -/

theorem mod_two_cases (x cap : Nat) (h : x < 2 * cap) :
    x % cap = if x < cap then x else x - cap := by
  by_cases hx : x < cap
  · simp [hx, Nat.mod_eq_of_lt hx]
  · have hge : cap ≤ x := Nat.le_of_not_lt hx
    have h2 : x - cap < cap := by omega
    simp [hx, Nat.mod_eq_sub_mod hge, Nat.mod_eq_of_lt h2]

theorem add_mod_inj (cap h i j : Nat) (hi : i < cap) (hj : j < cap)
    (he : (h + i) % cap = (h + j) % cap) : i = j := by
  have hm : i ≡ j [MOD cap] := Nat.ModEq.add_left_cancel' h he
  have : i % cap = j % cap := hm
  rwa [Nat.mod_eq_of_lt hi, Nat.mod_eq_of_lt hj] at this

theorem add_mod_ne (cap h k : Nat) (hh : h < cap) (hk : 0 < k)
    (hkc : k < cap) : (h + k) % cap ≠ h := by
  intro he
  have h0 : (h + 0) % cap = h := by
    simpa using Nat.mod_eq_of_lt hh
  exact absurd (add_mod_inj cap h k 0 hkc (by omega) (he.trans h0.symm))
    (by omega)

theorem getD_set_same (l : List Nat) (i b : Nat) (h : i < l.length) :
    (l.set i b).getD i 0 = b := by
  rw [List.getD_eq_getElem _ _ (by simpa using h)]
  exact List.getElem_set_self (by simpa using h)

theorem getD_set_ne (l : List Nat) (i j b : Nat) (h : i ≠ j) :
    (l.set i b).getD j 0 = l.getD j 0 := by
  by_cases hj : j < l.length
  · rw [List.getD_eq_getElem _ _ (by simpa using hj),
      List.getD_eq_getElem _ _ hj]
    exact List.getElem_set_ne h _
  · have hj' : l.length ≤ j := Nat.le_of_not_lt hj
    rw [List.getD_eq_default _ _ (by simpa using hj'),
      List.getD_eq_default _ _ hj']

theorem map_getD_range (l : List Nat) :
    (List.range l.length).map (fun i => l.getD i 0) = l := by
  induction l with
  | nil => rfl
  | cons a l ih =>
    rw [List.length_cons, List.range_succ_eq_map, List.map_cons,
      List.map_map]
    refine congrArg₂ _ List.getD_cons_zero ?_
    calc (List.range l.length).map ((fun i => (a :: l).getD i 0) ∘ Nat.succ)
        = (List.range l.length).map (fun i => l.getD i 0) := by
          refine List.map_congr_left fun i _ => ?_
          simp [List.getD_cons_succ]
      _ = l := ih

/-! ## Characterization of the byte-by-byte copy loops -/

namespace FullFlag

theorem readLoop_eq (buf : List Nat) (cap n : Nat) :
    ∀ tail, tail < cap →
      readLoop buf tail cap n =
        ((List.range n).map (fun j => buf.getD ((tail + j) % cap) 0),
          (tail + n) % cap) := by
  induction n with
  | zero => intro tail ht; simp [readLoop, Nat.mod_eq_of_lt ht]
  | succ n ih =>
    intro tail ht
    have hc : 0 < cap := lt_of_le_of_lt (Nat.zero_le _) ht
    have ih2 := ih ((tail + 1) % cap) (Nat.mod_lt _ hc)
    have hfun : ∀ j : Nat,
        ((tail + 1) % cap + j) % cap = (tail + (j + 1)) % cap := by
      intro j
      rw [Nat.mod_add_mod, Nat.add_assoc, Nat.add_comm 1 j]
    rw [readLoop]
    simp only [ih2, List.range_succ_eq_map, List.map_cons, List.map_map]
    refine congrArg₂ _ (congrArg₂ _ ?_ ?_) ?_
    · rw [Nat.add_zero, Nat.mod_eq_of_lt ht]
    · refine List.map_congr_left fun j _ => ?_
      simp [Function.comp, hfun j]
    · rw [hfun n]

theorem writeLoop_length (cap : Nat) (data : List Nat) :
    ∀ buf head, (writeLoop buf head cap data).1.length = buf.length := by
  induction data with
  | nil => intro buf head; rfl
  | cons b rest ih =>
    intro buf head
    rw [writeLoop, ih, List.length_set]

theorem writeLoop_head (cap : Nat) (data : List Nat) :
    ∀ buf head, head < cap →
      (writeLoop buf head cap data).2 = (head + data.length) % cap := by
  induction data with
  | nil =>
    intro buf head hh
    simp [writeLoop, Nat.mod_eq_of_lt hh]
  | cons b rest ih =>
    intro buf head hh
    have hc : 0 < cap := lt_of_le_of_lt (Nat.zero_le _) hh
    rw [writeLoop, ih _ _ (Nat.mod_lt _ hc), Nat.mod_add_mod,
      List.length_cons]
    congr 1
    omega

theorem writeLoop_getD_out (cap : Nat) (data : List Nat) :
    ∀ buf head, head < cap →
      ∀ p, (∀ i, i < data.length → (head + i) % cap ≠ p) →
        (writeLoop buf head cap data).1.getD p 0 = buf.getD p 0 := by
  induction data with
  | nil => intro buf head _ p _; rfl
  | cons b rest ih =>
    intro buf head hh p hp
    have hc : 0 < cap := lt_of_le_of_lt (Nat.zero_le _) hh
    rw [writeLoop, ih _ _ (Nat.mod_lt _ hc) p ?hcond]
    case hcond =>
      intro i hi
      rw [Nat.mod_add_mod, Nat.add_assoc, Nat.add_comm 1 i]
      exact hp (i + 1) (by simpa using Nat.succ_lt_succ hi)
    refine getD_set_ne buf head p b ?_
    have := hp 0 (by simp)
    rwa [Nat.add_zero, Nat.mod_eq_of_lt hh] at this

theorem writeLoop_getD_in (cap : Nat) (data : List Nat) :
    data.length ≤ cap → ∀ buf head, head < cap → buf.length = cap →
      ∀ i, i < data.length →
        (writeLoop buf head cap data).1.getD ((head + i) % cap) 0 =
          data.getD i 0 := by
  induction data with
  | nil => intro _ buf head _ _ i hi; simp at hi
  | cons b rest ih =>
    intro hlen buf head hh hb i hi
    have hc : 0 < cap := lt_of_le_of_lt (Nat.zero_le _) hh
    have hrest : rest.length ≤ cap := by
      rw [List.length_cons] at hlen; omega
    match i with
    | 0 =>
      rw [Nat.add_zero, Nat.mod_eq_of_lt hh, writeLoop,
        writeLoop_getD_out cap rest _ _ (Nat.mod_lt _ hc) head ?cond,
        getD_set_same buf head b (by omega), List.getD_cons_zero]
      case cond =>
        intro j hj
        rw [Nat.mod_add_mod, Nat.add_assoc, Nat.add_comm 1 j]
        refine add_mod_ne cap head (j + 1) hh (by omega) ?_
        rw [List.length_cons] at hlen
        omega
    | i' + 1 =>
      have hpos : (head + (i' + 1)) % cap = ((head + 1) % cap + i') % cap := by
        rw [Nat.mod_add_mod, Nat.add_assoc, Nat.add_comm 1 i']
      rw [writeLoop, hpos, List.getD_cons_succ]
      exact ih hrest (buf.set head b) _ (Nat.mod_lt _ hc)
        (by rw [List.length_set, hb]) i' (by
          rw [List.length_cons] at hi; omega)

end FullFlag

theorem getD_as_getElem (l : List Nat) (n : Nat) :
    l.getD n 0 = (l[n]?).getD 0 := by
  rw [List.getD_eq_getD_get?, List.get?_eq_getElem?]

theorem getD_take (l : List Nat) (t j : Nat) (hj : j < t) :
    (l.take t).getD j 0 = l.getD j 0 := by
  rw [getD_as_getElem, getD_as_getElem, List.getElem?_take, if_pos hj]

theorem getD_drop (l : List Nat) (n j : Nat) :
    (l.drop n).getD j 0 = l.getD (n + j) 0 := by
  rw [getD_as_getElem, getD_as_getElem, List.getElem?_drop]

theorem take_eq_map_range (data : List Nat) (t : Nat) (h : t ≤ data.length) :
    data.take t = (List.range t).map (fun i => data.getD i 0) := by
  have h1 := map_getD_range (data.take t)
  rw [List.length_take, inf_eq_min, min_eq_left h] at h1
  conv_lhs => rw [← h1]
  exact List.map_congr_left fun i hi =>
    getD_take data t i (List.mem_range.mp hi)

/-! ## Characterization of the `memcpy` model `setRange` -/

namespace OccCount

theorem setRange_length (src : List Nat) :
    ∀ buf pos, (setRange buf pos src).length = buf.length := by
  induction src with
  | nil => intro buf pos; rfl
  | cons b rest ih =>
    intro buf pos
    rw [setRange, ih, List.length_set]

theorem setRange_getD_out (src : List Nat) :
    ∀ buf pos p, (p < pos ∨ pos + src.length ≤ p) →
      (setRange buf pos src).getD p 0 = buf.getD p 0 := by
  induction src with
  | nil => intro buf pos p _; rfl
  | cons b rest ih =>
    intro buf pos p hp
    rw [List.length_cons] at hp
    rw [setRange, ih (buf.set pos b) (pos + 1) p (by omega)]
    exact getD_set_ne buf pos p b (by omega)

theorem setRange_getD_in (src : List Nat) :
    ∀ buf pos, pos + src.length ≤ buf.length →
      ∀ i, i < src.length →
        (setRange buf pos src).getD (pos + i) 0 = src.getD i 0 := by
  induction src with
  | nil => intro buf pos _ i hi; simp at hi
  | cons b rest ih =>
    intro buf pos hfit i hi
    rw [List.length_cons] at hfit
    match i with
    | 0 =>
      rw [Nat.add_zero, setRange,
        setRange_getD_out rest (buf.set pos b) (pos + 1) pos (by omega),
        getD_set_same buf pos b (by omega), List.getD_cons_zero]
    | i' + 1 =>
      rw [setRange, show pos + (i' + 1) = (pos + 1) + i' by omega,
        List.getD_cons_succ]
      exact ih (buf.set pos b) (pos + 1)
        (by rw [List.length_set]; omega) i'
        (by rw [List.length_cons] at hi; omega)

/-- Pointwise content of the two-phase (`chunk1`, wrap to offset 0)
block copy performed by the occupied-count `Buffer::write`, inside the
written window. -/
theorem twoPhase_getD_in (buf : List Nat) (cap wp t : Nat)
    (data : List Nat) (hwp : wp < cap) (hbuf : buf.length = cap)
    (ht : t ≤ cap) (htd : t ≤ data.length)
    (chunk1 : Nat) (hch : chunk1 = min t (cap - wp)) (buf2 : List Nat)
    (hb2 : buf2 = if chunk1 < t then
        setRange (setRange buf wp (data.take chunk1)) 0
          ((data.drop chunk1).take (t - chunk1))
      else setRange buf wp (data.take chunk1))
    (i : Nat) (hi : i < t) :
    buf2.getD ((wp + i) % cap) 0 = data.getD i 0 := by
  have hch1 : chunk1 ≤ t := by omega
  have hch2 : chunk1 ≤ cap - wp := by omega
  have hlen1 : (data.take chunk1).length = chunk1 := by
    rw [List.length_take, inf_eq_min, min_eq_left (le_trans hch1 htd)]
  by_cases hcase : i < chunk1
  · -- the byte lies in the first block
    have hpos : (wp + i) % cap = wp + i :=
      Nat.mod_eq_of_lt (by omega)
    have hinner : (setRange buf wp (data.take chunk1)).getD (wp + i) 0 =
        data.getD i 0 := by
      rw [setRange_getD_in (data.take chunk1) buf wp
          (by rw [hlen1, hbuf]; omega) i (by omega)]
      exact getD_take data chunk1 i hcase
    rw [hb2, hpos]
    split
    · next hlt =>
      have hchev : chunk1 = cap - wp := by omega
      rw [setRange_getD_out _ _ 0 (wp + i) ?far]
      · exact hinner
      case far =>
        right
        rw [List.length_take, List.length_drop, inf_eq_min,
          min_eq_left (by omega)]
        omega
    · exact hinner
  · -- the byte wrapped to the start of the storage
    have hlt : chunk1 < t := by omega
    have hchev : chunk1 = cap - wp := by
      rcases Nat.lt_or_ge t (cap - wp) with hx | hx
      · rw [hch, min_eq_left (by omega)] at hlt; omega
      · rw [hch, min_eq_right hx]
    have hpos : (wp + i) % cap = i - chunk1 := by
      rw [mod_two_cases _ _ (by omega)]
      split <;> omega
    have hlen2 : ((data.drop chunk1).take (t - chunk1)).length =
        t - chunk1 := by
      rw [List.length_take, List.length_drop, inf_eq_min,
        min_eq_left (by omega)]
    rw [hb2, if_pos hlt, hpos,
      show i - chunk1 = 0 + (i - chunk1) by omega,
      setRange_getD_in _ _ 0 (by rw [hlen2, setRange_length, hbuf]; omega)
        (i - chunk1) (by omega),
      getD_take _ _ _ (by omega), getD_drop,
      show chunk1 + (i - chunk1) = i by omega]

/-- The two-phase block copy leaves every byte outside the written
window unchanged. -/
theorem twoPhase_getD_out (buf : List Nat) (cap wp t : Nat)
    (data : List Nat) (hwp : wp < cap) (hbuf : buf.length = cap)
    (ht : t ≤ cap) (htd : t ≤ data.length)
    (chunk1 : Nat) (hch : chunk1 = min t (cap - wp)) (buf2 : List Nat)
    (hb2 : buf2 = if chunk1 < t then
        setRange (setRange buf wp (data.take chunk1)) 0
          ((data.drop chunk1).take (t - chunk1))
      else setRange buf wp (data.take chunk1))
    (p : Nat) (hp : p < cap)
    (hfar : ∀ i, i < t → (wp + i) % cap ≠ p) :
    buf2.getD p 0 = buf.getD p 0 := by
  have hch1 : chunk1 ≤ t := by omega
  have hlen1 : (data.take chunk1).length = chunk1 := by
    rw [List.length_take, inf_eq_min, min_eq_left (le_trans hch1 htd)]
  have hout1 : p < wp ∨ wp + chunk1 ≤ p := by
    by_contra hcon
    push_neg at hcon
    obtain ⟨h1, h2⟩ := hcon
    refine hfar (p - wp) (by omega) ?_
    rw [show wp + (p - wp) = p by omega, Nat.mod_eq_of_lt hp]
  have hinner : (setRange buf wp (data.take chunk1)).getD p 0 =
      buf.getD p 0 :=
    setRange_getD_out _ _ _ _ (by rw [hlen1]; omega)
  rw [hb2]
  split
  · next hlt =>
    have hchev : chunk1 = cap - wp := by
      rcases Nat.lt_or_ge t (cap - wp) with hx | hx
      · rw [hch, min_eq_left (by omega)] at hlt; omega
      · rw [hch, min_eq_right hx]
    have hout2 : t - chunk1 ≤ p := by
      by_contra hcon
      push_neg at hcon
      refine hfar (chunk1 + p) (by omega) ?_
      rw [show wp + (chunk1 + p) = cap + p by omega,
        Nat.add_comm cap p, Nat.add_mod_right, Nat.mod_eq_of_lt hp]
    have hlen2 : ((data.drop chunk1).take (t - chunk1)).length =
        t - chunk1 := by
      rw [List.length_take, List.length_drop, inf_eq_min,
        min_eq_left (by omega)]
    rw [setRange_getD_out _ _ 0 p (by rw [hlen2]; omega)]
    exact hinner
  · exact hinner

end OccCount

/-! ## Shared reasoning on the readable-contents view -/

theorem contents_append_core (bufOld bufNew : List Nat)
    (cap R a t : Nat) (data : List Nat) (hR : R < cap) (hat : a + t ≤ cap)
    (htd : t ≤ data.length)
    (hin : ∀ i, i < t →
      bufNew.getD (((R + a) % cap + i) % cap) 0 = data.getD i 0)
    (hout : ∀ p, p < cap → (∀ i, i < t → ((R + a) % cap + i) % cap ≠ p) →
      bufNew.getD p 0 = bufOld.getD p 0) :
    (List.range (a + t)).map (fun j => bufNew.getD ((R + j) % cap) 0) =
      (List.range a).map (fun j => bufOld.getD ((R + j) % cap) 0) ++
        data.take t := by
  have hc : 0 < cap := by omega
  rw [List.range_add, List.map_append, List.map_map]
  congr 1
  · refine List.map_congr_left fun j hj => ?_
    have hj' : j < a := List.mem_range.mp hj
    refine hout ((R + j) % cap) (Nat.mod_lt _ hc) ?_
    intro i hi he
    rw [Nat.mod_add_mod, Nat.add_assoc] at he
    have := add_mod_inj cap R (a + i) j (by omega) (by omega) he
    omega
  · rw [take_eq_map_range data t htd]
    refine List.map_congr_left fun j hj => ?_
    have hj' : j < t := List.mem_range.mp hj
    have h1 : (R + (a + j)) % cap = ((R + a) % cap + j) % cap := by
      rw [Nat.mod_add_mod, Nat.add_assoc]
    simp only [Function.comp]
    rw [h1, hin j hj']

theorem contents_take_core (buf : List Nat) (cap R a r : Nat)
    (hr : r ≤ a) :
    ((List.range a).map (fun j => buf.getD ((R + j) % cap) 0)).take r =
      (List.range r).map (fun j => buf.getD ((R + j) % cap) 0) := by
  rw [← List.map_take, List.take_range, inf_eq_min, min_eq_left hr]

theorem contents_drop_core (buf : List Nat) (cap R a r : Nat)
    (hR : R < cap) (hr : r ≤ a) :
    (List.range (a - r)).map
        (fun j => buf.getD (((R + r) % cap + j) % cap) 0) =
      ((List.range a).map (fun j => buf.getD ((R + j) % cap) 0)).drop r := by
  conv_rhs => rw [show a = r + (a - r) by omega, List.range_add]
  rw [List.map_append, List.map_map]
  have hlen : ((List.range r).map
      (fun j => buf.getD ((R + j) % cap) 0)).length = r := by
    rw [List.length_map, List.length_range]
  rw [List.drop_left' hlen]
  refine List.map_congr_left fun j _ => ?_
  simp only [Function.comp]
  rw [Nat.mod_add_mod, Nat.add_assoc]

theorem avail_of_head (cap head tail k : Nat) (hh : head < cap)
    (ht : tail < cap) (hk : k < cap) (he : head = (tail + k) % cap) :
    (if head ≥ tail then head - tail else cap - tail + head) = k := by
  rw [mod_two_cases _ _ (by omega)] at he
  split at he <;> split <;> omega

/-! ## Semantics of the full-flag variant's operations -/

namespace FullFlag

/-- Structural invariant of the full-flag buffer: the storage has the
declared capacity, both cursors are in `[0, mCapacity)`, and the full
flag is only up when the cursors coincide. -/
def Inv (s : Buffer) : Prop :=
  s.mBuffer.length = s.mCapacity ∧ s.mHead < s.mCapacity ∧
    s.mTail < s.mCapacity ∧ (s.mIsFull = true → s.mHead = s.mTail)

instance (s : Buffer) : Decidable (Inv s) := by
  unfold Inv; infer_instance

/-- The readable bytes, oldest first: the window `[mTail, mTail+avail)`
mod capacity of the storage. -/
def Buffer.contents (s : Buffer) : List Nat :=
  (List.range s.getAvailableInternal).map
    (fun j => s.mBuffer.getD ((s.mTail + j) % s.mCapacity) 0)

theorem contents_length (s : Buffer) :
    s.contents.length = s.getAvailableInternal := by
  rw [Buffer.contents, List.length_map, List.length_range]

theorem avail_le_cap (s : Buffer) (h : Inv s) :
    s.getAvailableInternal ≤ s.mCapacity := by
  obtain ⟨hb, hh, htl, hf⟩ := h
  rw [Buffer.getAvailableInternal]
  split
  · exact le_refl _
  · split <;> omega

theorem head_eq_tail_add_avail (s : Buffer) (h : Inv s) :
    s.mHead = (s.mTail + s.getAvailableInternal) % s.mCapacity := by
  obtain ⟨hb, hh, htl, hf⟩ := h
  rw [Buffer.getAvailableInternal]
  by_cases hfull : s.mIsFull = true
  · rw [if_pos hfull, Nat.add_mod_right, Nat.mod_eq_of_lt htl, hf hfull]
  · rw [if_neg hfull]
    split
    · next hge =>
      rw [show s.mTail + (s.mHead - s.mTail) = s.mHead by omega,
        Nat.mod_eq_of_lt hh]
    · next hlt =>
      rw [show s.mTail + (s.mCapacity - s.mTail + s.mHead) =
          s.mHead + s.mCapacity by omega,
        Nat.add_mod_right, Nat.mod_eq_of_lt hh]

theorem avail_eq_cap_iff (s : Buffer) (h : Inv s) :
    s.getAvailableInternal = s.mCapacity ↔ s.mIsFull = true := by
  obtain ⟨hb, hh, htl, hf⟩ := h
  rw [Buffer.getAvailableInternal]
  by_cases hfull : s.mIsFull = true
  · simp [hfull]
  · simp only [if_neg hfull]
    constructor
    · intro he
      split at he <;> omega
    · intro he; exact absurd he hfull

theorem avail_eq_zero_iff (s : Buffer) (h : Inv s) :
    s.getAvailableInternal = 0 ↔ s.isEmptyInternal = true := by
  obtain ⟨hb, hh, htl, hf⟩ := h
  rw [Buffer.getAvailableInternal, Buffer.isEmptyInternal]
  by_cases hfull : s.mIsFull = true
  · rw [if_pos hfull]
    simp only [hfull, Bool.not_true, Bool.false_and]
    constructor
    · intro he; exfalso; omega
    · intro he; exact absurd he (by simp)
  · simp only [if_neg hfull, Bool.and_eq_true, Bool.not_eq_eq_eq_not,
      Bool.not_true, beq_iff_eq]
    constructor
    · intro he
      refine ⟨by simpa using hfull, ?_⟩
      split at he <;> omega
    · intro ⟨_, he⟩
      rw [he]
      simp

/-- Value of `Buffer::write` when the clamped count is zero. -/
theorem write_eq_of_zero (s : Buffer) (data : List Nat)
    (ht0 : min data.length (s.mCapacity - s.getAvailableInternal) = 0) :
    s.write data = (s, 0) := by
  rw [Buffer.write]
  simp only [if_pos ht0]

/-- Value of `Buffer::write` when the clamped count is positive. -/
theorem write_eq_of_pos (s : Buffer) (data : List Nat)
    (ht0 : min data.length (s.mCapacity - s.getAvailableInternal) ≠ 0) :
    s.write data =
      ({ s with
          mBuffer := (writeLoop s.mBuffer s.mHead s.mCapacity
            (data.take (min data.length
              (s.mCapacity - s.getAvailableInternal)))).1
          mHead := (writeLoop s.mBuffer s.mHead s.mCapacity
            (data.take (min data.length
              (s.mCapacity - s.getAvailableInternal)))).2
          mIsFull := if (writeLoop s.mBuffer s.mHead s.mCapacity
              (data.take (min data.length
                (s.mCapacity - s.getAvailableInternal)))).2 = s.mTail
            then true else s.mIsFull },
        min data.length (s.mCapacity - s.getAvailableInternal)) := by
  rw [Buffer.write]
  simp only [if_neg ht0]

/-- Behaviour of `Buffer::write`: it returns the clamped count
`min len freeSpace`, preserves the invariant, capacity and tail, grows
the occupied count by the returned count, and appends exactly the first
returned-count bytes of `data` to the readable contents. -/
theorem write_spec (s : Buffer) (data : List Nat) (h : Inv s) :
    (s.write data).2 =
        min data.length (s.mCapacity - s.getAvailableInternal) ∧
      Inv (s.write data).1 ∧
      (s.write data).1.mCapacity = s.mCapacity ∧
      (s.write data).1.mTail = s.mTail ∧
      (s.write data).1.getAvailableInternal =
        s.getAvailableInternal +
          min data.length (s.mCapacity - s.getAvailableInternal) ∧
      (s.write data).1.contents =
        s.contents ++ data.take (min data.length
          (s.mCapacity - s.getAvailableInternal)) := by
  obtain ⟨hb, hh, htl, hf⟩ := h
  have hc : 0 < s.mCapacity := by omega
  set a := s.getAvailableInternal with ha
  set t := min data.length (s.mCapacity - a) with htdef
  have hale : a ≤ s.mCapacity := avail_le_cap s ⟨hb, hh, htl, hf⟩
  have htd : t ≤ data.length := by rw [htdef]; exact Nat.min_le_left _ _
  have hts : t ≤ s.mCapacity - a := by
    rw [htdef]; exact Nat.min_le_right _ _
  have hat : a + t ≤ s.mCapacity := by omega
  by_cases ht0 : t = 0
  · have ht0' : min data.length
        (s.mCapacity - s.getAvailableInternal) = 0 := by
      rw [← ha, ← htdef]; exact ht0
    rw [write_eq_of_zero s data ht0', ht0]
    refine ⟨rfl, ⟨hb, hh, htl, hf⟩, rfl, rfl, by simp [← ha], by simp⟩
  · have ht0' : min data.length
        (s.mCapacity - s.getAvailableInternal) ≠ 0 := by
      rw [← ha, ← htdef]; exact ht0
    rw [write_eq_of_pos s data ht0', ← ha, ← htdef]
    set W := writeLoop s.mBuffer s.mHead s.mCapacity (data.take t)
      with hWdef
    have hlen_take : (data.take t).length = t := by
      rw [List.length_take, inf_eq_min, min_eq_left htd]
    have hhead : (s.mTail + a) % s.mCapacity = s.mHead :=
      (head_eq_tail_add_avail s ⟨hb, hh, htl, hf⟩).symm
    have hW2 : W.2 = (s.mTail + (a + t)) % s.mCapacity := by
      rw [hWdef, writeLoop_head s.mCapacity (data.take t) s.mBuffer
          s.mHead hh, hlen_take, ← hhead, Nat.mod_add_mod,
        Nat.add_assoc]
    have hWlen : W.1.length = s.mCapacity := by
      rw [hWdef, writeLoop_length, hb]
    have hnotfull : s.mIsFull = false := by
      cases hfb : s.mIsFull with
      | false => rfl
      | true =>
        exfalso
        have hac : a = s.mCapacity := by
          rw [ha, Buffer.getAvailableInternal, if_pos hfb]
        rw [htdef, hac] at ht0
        simp at ht0
    have havail' : (if W.2 = s.mTail then true else s.mIsFull) = true →
        W.2 = s.mTail := by
      intro hfu
      by_contra hne
      rw [if_neg hne, hnotfull] at hfu
      exact absurd hfu (by simp)
    have havail2 : Buffer.getAvailableInternal
        { s with
            mBuffer := W.1
            mHead := W.2
            mIsFull := if W.2 = s.mTail then true else s.mIsFull } =
        a + t := by
      rw [Buffer.getAvailableInternal]
      by_cases hwt : W.2 = s.mTail
      · have hcapeq : a + t = s.mCapacity := by
          rw [hwt] at hW2
          have h2 := hW2.symm
          rw [mod_two_cases _ _ (by omega)] at h2
          split at h2 <;> omega
        simp [hwt]
        omega
      · have hatlt : a + t < s.mCapacity := by
          rcases Nat.lt_or_ge (a + t) s.mCapacity with hx | hx
          · exact hx
          · exfalso
            have he : a + t = s.mCapacity := by omega
            rw [he, Nat.add_mod_right, Nat.mod_eq_of_lt htl] at hW2
            exact hwt hW2
        simp only [if_neg hwt, hnotfull, Bool.false_eq_true, if_false]
        exact avail_of_head s.mCapacity _ s.mTail (a + t)
          (hW2 ▸ Nat.mod_lt _ hc) htl hatlt hW2
    have hcont : Buffer.contents
        { s with
            mBuffer := W.1
            mHead := W.2
            mIsFull := if W.2 = s.mTail then true else s.mIsFull } =
        s.contents ++ data.take t := by
      rw [Buffer.contents, havail2, Buffer.contents, ← ha]
      refine contents_append_core s.mBuffer W.1 s.mCapacity s.mTail
        a t data htl hat htd ?_ ?_
      · intro i hi
        rw [hhead, hWdef,
          writeLoop_getD_in s.mCapacity (data.take t)
            (by rw [hlen_take]; omega) s.mBuffer s.mHead hh hb i
            (by rw [hlen_take]; omega)]
        exact getD_take data t i hi
      · intro p hp hfar
        rw [hWdef, writeLoop_getD_out s.mCapacity (data.take t)
          s.mBuffer s.mHead hh p ?_]
        intro i hi
        rw [← hhead]
        exact hfar i (by rw [hlen_take] at hi; exact hi)
    exact ⟨rfl, ⟨hWlen, hW2 ▸ Nat.mod_lt _ hc, htl, havail'⟩,
      rfl, rfl, havail2, hcont⟩

/-- Value of `Buffer::read` when the clamped count is zero. -/
theorem read_eq_of_zero (s : Buffer) (len : Nat)
    (hr0 : min len s.getAvailableInternal = 0) :
    s.read len = (s, [], 0) := by
  rw [Buffer.read]
  simp only [if_pos hr0]

/-- Value of `Buffer::read` when the clamped count is positive. -/
theorem read_eq_of_pos (s : Buffer) (len : Nat)
    (hr0 : min len s.getAvailableInternal ≠ 0) :
    s.read len =
      ({ s with
          mTail := (readLoop s.mBuffer s.mTail s.mCapacity
            (min len s.getAvailableInternal)).2
          mIsFull := false },
        (readLoop s.mBuffer s.mTail s.mCapacity
          (min len s.getAvailableInternal)).1,
        min len s.getAvailableInternal) := by
  rw [Buffer.read]
  simp only [if_neg hr0]

/-- Behaviour of `Buffer::read`: it returns `min len available` bytes,
those bytes are the oldest `len` readable bytes in write order, the
invariant, capacity, head and storage are preserved, and the occupied
count and contents shrink by exactly the bytes delivered. -/
theorem read_spec (s : Buffer) (len : Nat) (h : Inv s) :
    (s.read len).2.2 = min len s.getAvailableInternal ∧
      (s.read len).2.1 = s.contents.take len ∧
      Inv (s.read len).1 ∧
      (s.read len).1.mCapacity = s.mCapacity ∧
      (s.read len).1.mHead = s.mHead ∧
      (s.read len).1.mBuffer = s.mBuffer ∧
      (s.read len).1.getAvailableInternal =
        s.getAvailableInternal - min len s.getAvailableInternal ∧
      (s.read len).1.contents =
        s.contents.drop (min len s.getAvailableInternal) := by
  obtain ⟨hb, hh, htl, hf⟩ := h
  have hc : 0 < s.mCapacity := by omega
  set a := s.getAvailableInternal with ha
  set r := min len a with hrdef
  have hale : a ≤ s.mCapacity := avail_le_cap s ⟨hb, hh, htl, hf⟩
  have hrl : r ≤ len := by rw [hrdef]; exact Nat.min_le_left _ _
  have hra : r ≤ a := by rw [hrdef]; exact Nat.min_le_right _ _
  have hconlen : s.contents.length = a := by rw [contents_length, ← ha]
  by_cases hr0 : r = 0
  · have hr0' : min len s.getAvailableInternal = 0 := by
      rw [← ha, ← hrdef]; exact hr0
    rw [read_eq_of_zero s len hr0', hr0]
    have hcases : len = 0 ∨ a = 0 :=
      Nat.min_eq_zero_iff.mp (hrdef ▸ hr0)
    refine ⟨rfl, ?_, ⟨hb, hh, htl, hf⟩, rfl, rfl, rfl,
      by simp [← ha], by simp⟩
    rcases hcases with h0 | h0
    · rw [h0]; rfl
    · have : s.contents = [] :=
        List.eq_nil_of_length_eq_zero (by rw [hconlen, h0])
      rw [this]; simp
  · have hr0' : min len s.getAvailableInternal ≠ 0 := by
      rw [← ha, ← hrdef]; exact hr0
    rw [read_eq_of_pos s len hr0', ← ha, ← hrdef]
    have hR := readLoop_eq s.mBuffer s.mCapacity r s.mTail htl
    set R := readLoop s.mBuffer s.mTail s.mCapacity r with hRdef
    have hR2 : R.2 = (s.mTail + r) % s.mCapacity := by rw [hR]
    have htake_len : s.contents.take len = s.contents.take r := by
      rcases Nat.le_total len a with hle | hge
      · rw [hrdef, min_eq_left hle]
      · rw [List.take_of_length_le (by rw [hconlen]; exact hge),
          hrdef, min_eq_right hge,
          List.take_of_length_le (le_of_eq hconlen)]
    have hout1 : R.1 = s.contents.take r := by
      rw [hR]
      show (List.range r).map _ = _
      rw [Buffer.contents, ← ha,
        contents_take_core s.mBuffer s.mCapacity s.mTail a r hra]
    have hhead_eq : s.mHead = (s.mTail + a) % s.mCapacity :=
      head_eq_tail_add_avail s ⟨hb, hh, htl, hf⟩
    have hk : a - r < s.mCapacity := by omega
    have hhead2 : s.mHead = (R.2 + (a - r)) % s.mCapacity := by
      rw [hR2, Nat.mod_add_mod,
        show s.mTail + r + (a - r) = s.mTail + a by omega, ← hhead_eq]
    have havail2 : Buffer.getAvailableInternal
        { s with mTail := R.2, mIsFull := false } = a - r := by
      rw [Buffer.getAvailableInternal]
      simp only [Bool.false_eq_true, if_false]
      exact avail_of_head s.mCapacity s.mHead R.2 (a - r) hh
        (hR2 ▸ Nat.mod_lt _ hc) hk hhead2
    have hcont : Buffer.contents
        { s with mTail := R.2, mIsFull := false } =
        s.contents.drop r := by
      rw [Buffer.contents, havail2, hR2, Buffer.contents, ← ha,
        ← contents_drop_core s.mBuffer s.mCapacity s.mTail a r htl hra]
    exact ⟨rfl, hout1.trans htake_len.symm,
      ⟨hb, hh, hR2 ▸ Nat.mod_lt _ hc, fun hfu => by simp at hfu⟩,
      rfl, rfl, rfl, havail2, hcont⟩

/-- Behaviour of `Buffer::clear`: the invariant is preserved, the
occupied count drops to zero, the readable contents become empty, and
the capacity is unchanged. -/
theorem clear_spec (s : Buffer) (h : Inv s) :
    Inv s.clear ∧ s.clear.getAvailableInternal = 0 ∧
      s.clear.contents = [] ∧ s.clear.mCapacity = s.mCapacity := by
  obtain ⟨hb, hh, htl, hf⟩ := h
  have hc : 0 < s.mCapacity := by omega
  have h0 : s.clear.getAvailableInternal = 0 := by
    rw [Buffer.clear, Buffer.getAvailableInternal]
    simp
  refine ⟨⟨hb, hc, hc, fun _ => rfl⟩, h0, ?_, rfl⟩
  rw [Buffer.contents, h0]
  simp

/-- The freshly constructed buffer: invariant holds, nothing to read. -/
theorem init_spec (cap : Nat) (hc : 0 < cap) :
    Inv (Buffer.init cap) ∧
      (Buffer.init cap).getAvailableInternal = 0 ∧
      (Buffer.init cap).contents = [] ∧
      (Buffer.init cap).mCapacity = cap := by
  have h0 : (Buffer.init cap).getAvailableInternal = 0 := by
    rw [Buffer.init, Buffer.getAvailableInternal]
    simp
  refine ⟨⟨by simp [Buffer.init], hc, hc, fun _ => rfl⟩, h0, ?_, rfl⟩
  rw [Buffer.contents, h0]
  simp

end FullFlag

/-! ## Semantics of the occupied-count variant's operations -/

namespace OccCount

/-- Structural invariant of the occupied-count buffer: storage has the
declared capacity, the read position is in `[0, m_capacity)`, the count
never exceeds the capacity, and the write position sits `count` bytes
past the read position (mod capacity). -/
def Inv (s : Buffer) : Prop :=
  s.m_buffer.length = s.m_capacity ∧ s.m_readPos < s.m_capacity ∧
    s.m_dataAvailable ≤ s.m_capacity ∧
    s.m_writePos = (s.m_readPos + s.m_dataAvailable) % s.m_capacity

instance (s : Buffer) : Decidable (Inv s) := by
  unfold Inv; infer_instance

/-- The readable bytes, oldest first: the window
`[m_readPos, m_readPos+m_dataAvailable)` mod capacity of the storage. -/
def Buffer.contents (s : Buffer) : List Nat :=
  (List.range s.m_dataAvailable).map
    (fun j => s.m_buffer.getD ((s.m_readPos + j) % s.m_capacity) 0)

theorem contents_length_occ (s : Buffer) :
    s.contents.length = s.m_dataAvailable := by
  rw [Buffer.contents, List.length_map, List.length_range]

/-- Value of the occupied-count `Buffer::write` when the clamped count
is zero. -/
theorem write_eq_of_zero_occ (s : Buffer) (data : List Nat)
    (ht0 : min data.length (s.m_capacity - s.m_dataAvailable) = 0) :
    s.write data = (s, 0) := by
  rw [Buffer.write]
  simp only [if_pos ht0]

/-- Value of the occupied-count `Buffer::write` when the clamped count
is positive. -/
theorem write_eq_of_pos_occ (s : Buffer) (data : List Nat) (t : Nat)
    (htdef : t = min data.length (s.m_capacity - s.m_dataAvailable))
    (ht0 : t ≠ 0) (chunk1 : Nat)
    (hch : chunk1 = min t (s.m_capacity - s.m_writePos))
    (buf2 : List Nat)
    (hb2 : buf2 = if chunk1 < t then
        setRange (setRange s.m_buffer s.m_writePos (data.take chunk1)) 0
          ((data.drop chunk1).take (t - chunk1))
      else setRange s.m_buffer s.m_writePos (data.take chunk1)) :
    s.write data =
      ({ s with
          m_buffer := buf2
          m_writePos := (s.m_writePos + t) % s.m_capacity
          m_dataAvailable := s.m_dataAvailable + t }, t) := by
  subst hch
  subst hb2
  subst htdef
  rw [Buffer.write]
  simp only [if_neg ht0]

/-- Behaviour of the occupied-count `Buffer::write`: returns the clamped
count `min len freeSpace`, preserves the invariant, capacity and read
position, grows the count by the returned count, and appends exactly the
first returned-count bytes of `data` to the readable contents. -/
theorem write_spec_occ (s : Buffer) (data : List Nat) (h : Inv s) :
    (s.write data).2 =
        min data.length (s.m_capacity - s.m_dataAvailable) ∧
      Inv (s.write data).1 ∧
      (s.write data).1.m_capacity = s.m_capacity ∧
      (s.write data).1.m_readPos = s.m_readPos ∧
      (s.write data).1.m_dataAvailable = s.m_dataAvailable +
        min data.length (s.m_capacity - s.m_dataAvailable) ∧
      (s.write data).1.contents =
        s.contents ++ data.take (min data.length
          (s.m_capacity - s.m_dataAvailable)) := by
  obtain ⟨hb, hrp, hda, hwp⟩ := h
  have hc : 0 < s.m_capacity := by omega
  set a := s.m_dataAvailable with ha
  set t := min data.length (s.m_capacity - a) with htdef
  have htd : t ≤ data.length := by rw [htdef]; exact Nat.min_le_left _ _
  have hts : t ≤ s.m_capacity - a := by
    rw [htdef]; exact Nat.min_le_right _ _
  have hat : a + t ≤ s.m_capacity := by omega
  by_cases ht0 : t = 0
  · have h0 : min data.length (s.m_capacity - s.m_dataAvailable) = 0 := by
      rw [← ha, ← htdef]; exact ht0
    rw [write_eq_of_zero_occ s data h0, ht0]
    exact ⟨rfl, ⟨hb, hrp, hda, hwp⟩, rfl, rfl, by simp [← ha], by simp⟩
  · have hwplt : s.m_writePos < s.m_capacity := by
      rw [hwp]; exact Nat.mod_lt _ hc
    set chunk1 := min t (s.m_capacity - s.m_writePos) with hchdef
    set buf2 := (if chunk1 < t then
        setRange (setRange s.m_buffer s.m_writePos (data.take chunk1)) 0
          ((data.drop chunk1).take (t - chunk1))
      else setRange s.m_buffer s.m_writePos (data.take chunk1))
      with hb2def
    have hw := write_eq_of_pos_occ s data t (by rw [htdef, ← ha]) ht0
      chunk1 hchdef buf2 hb2def
    rw [hw]
    have htc : t ≤ s.m_capacity := by omega
    have hb2len : buf2.length = s.m_capacity := by
      rw [hb2def]
      split
      · rw [setRange_length, setRange_length, hb]
      · rw [setRange_length, hb]
    have hin : ∀ i, i < t →
        buf2.getD ((s.m_writePos + i) % s.m_capacity) 0 =
          data.getD i 0 :=
      twoPhase_getD_in s.m_buffer s.m_capacity s.m_writePos t data
        hwplt hb htc htd chunk1 hchdef buf2 hb2def
    have hout : ∀ p, p < s.m_capacity →
        (∀ i, i < t → (s.m_writePos + i) % s.m_capacity ≠ p) →
        buf2.getD p 0 = s.m_buffer.getD p 0 :=
      twoPhase_getD_out s.m_buffer s.m_capacity s.m_writePos t data
        hwplt hb htc htd chunk1 hchdef buf2 hb2def
    have hcont : Buffer.contents
        { s with
            m_buffer := buf2
            m_writePos := (s.m_writePos + t) % s.m_capacity
            m_dataAvailable := s.m_dataAvailable + t } =
        s.contents ++ data.take t := by
      rw [Buffer.contents, Buffer.contents, ← ha]
      show (List.range (a + t)).map _ = _
      refine contents_append_core s.m_buffer buf2 s.m_capacity
        s.m_readPos a t data hrp hat htd ?_ ?_
      · intro i hi
        rw [show (s.m_readPos + a) % s.m_capacity = s.m_writePos from
          hwp.symm]
        exact hin i hi
      · intro p hp hfar
        refine hout p hp fun i hi => ?_
        rw [hwp]
        exact hfar i hi
    refine ⟨rfl, ⟨hb2len, hrp, by show a + t ≤ s.m_capacity; omega, ?_⟩,
      rfl, rfl, rfl, hcont⟩
    show (s.m_writePos + t) % s.m_capacity =
      (s.m_readPos + (a + t)) % s.m_capacity
    rw [hwp, Nat.mod_add_mod, Nat.add_assoc]

/-- Value of the occupied-count `Buffer::read` when the clamped count
is zero. -/
theorem read_eq_of_zero_occ (s : Buffer) (len : Nat)
    (hr0 : min len s.m_dataAvailable = 0) :
    s.read len = (s, [], 0) := by
  rw [Buffer.read]
  simp only [if_pos hr0]

/-- Value of the occupied-count `Buffer::read` when the clamped count
is positive. -/
theorem read_eq_of_pos_occ (s : Buffer) (len r : Nat)
    (hrdef : r = min len s.m_dataAvailable) (hr0 : r ≠ 0)
    (chunk1 : Nat)
    (hch : chunk1 = min r (s.m_capacity - s.m_readPos))
    (out : List Nat)
    (houtdef : out = if chunk1 < r then
        (s.m_buffer.drop s.m_readPos).take chunk1 ++
          s.m_buffer.take (r - chunk1)
      else (s.m_buffer.drop s.m_readPos).take chunk1) :
    s.read len =
      ({ s with
          m_readPos := (s.m_readPos + r) % s.m_capacity
          m_dataAvailable := s.m_dataAvailable - r }, out, r) := by
  subst hch
  subst houtdef
  subst hrdef
  rw [Buffer.read]
  simp only [if_neg hr0]

/-- Behaviour of the occupied-count `Buffer::read`: it returns
`min len available` bytes, those bytes are the oldest `len` readable
bytes in write order, the invariant, capacity and storage are preserved,
and the count and contents shrink by exactly the bytes delivered. -/
theorem read_spec_occ (s : Buffer) (len : Nat) (h : Inv s) :
    (s.read len).2.2 = min len s.m_dataAvailable ∧
      (s.read len).2.1 = s.contents.take len ∧
      Inv (s.read len).1 ∧
      (s.read len).1.m_capacity = s.m_capacity ∧
      (s.read len).1.m_buffer = s.m_buffer ∧
      (s.read len).1.m_dataAvailable =
        s.m_dataAvailable - min len s.m_dataAvailable ∧
      (s.read len).1.contents =
        s.contents.drop (min len s.m_dataAvailable) := by
  obtain ⟨hb, hrp, hda, hwp⟩ := h
  have hc : 0 < s.m_capacity := by omega
  set a := s.m_dataAvailable with ha
  set r := min len a with hrdef
  have hrl : r ≤ len := by rw [hrdef]; exact Nat.min_le_left _ _
  have hra : r ≤ a := by rw [hrdef]; exact Nat.min_le_right _ _
  have hconlen : s.contents.length = a := by
    rw [contents_length_occ, ← ha]
  by_cases hr0 : r = 0
  · have hr0' : min len s.m_dataAvailable = 0 := by
      rw [← ha, ← hrdef]; exact hr0
    rw [read_eq_of_zero_occ s len hr0', hr0]
    have hcases : len = 0 ∨ a = 0 :=
      Nat.min_eq_zero_iff.mp (hrdef ▸ hr0)
    refine ⟨rfl, ?_, ⟨hb, hrp, hda, hwp⟩, rfl, rfl,
      by simp [← ha], by simp⟩
    rcases hcases with h0 | h0
    · rw [h0]; rfl
    · have : s.contents = [] :=
        List.eq_nil_of_length_eq_zero (by rw [hconlen, h0])
      rw [this]; simp
  · set chunk1 := min r (s.m_capacity - s.m_readPos) with hchdef
    set out := (if chunk1 < r then
        (s.m_buffer.drop s.m_readPos).take chunk1 ++
          s.m_buffer.take (r - chunk1)
      else (s.m_buffer.drop s.m_readPos).take chunk1) with houtdef
    have hw := read_eq_of_pos_occ s len r (by rw [hrdef, ← ha]) hr0
      chunk1 hchdef out houtdef
    rw [hw]
    have hch1 : chunk1 ≤ r := by rw [hchdef]; exact Nat.min_le_left _ _
    have hch2 : chunk1 ≤ s.m_capacity - s.m_readPos := by
      rw [hchdef]; exact Nat.min_le_right _ _
    have houtmap : out = (List.range r).map
        (fun j => s.m_buffer.getD ((s.m_readPos + j) % s.m_capacity) 0) := by
      rw [houtdef]
      split
      · next hlt =>
        have hchev : chunk1 = s.m_capacity - s.m_readPos := by
          rcases Nat.lt_or_ge r (s.m_capacity - s.m_readPos) with hx | hx
          · rw [hchdef, min_eq_left (by omega)] at hlt; omega
          · rw [hchdef, min_eq_right hx]
        conv_rhs => rw [show r = chunk1 + (r - chunk1) by omega,
          List.range_add, List.map_append]
        congr 1
        · rw [take_eq_map_range _ chunk1
            (by rw [List.length_drop, hb]; omega)]
          refine List.map_congr_left fun i hi => ?_
          have hi' : i < chunk1 := List.mem_range.mp hi
          rw [getD_drop, Nat.mod_eq_of_lt (by omega)]
        · rw [take_eq_map_range _ (r - chunk1) (by rw [hb]; omega),
            List.map_map]
          refine List.map_congr_left fun i hi => ?_
          have hi' : i < r - chunk1 := List.mem_range.mp hi
          simp only [Function.comp]
          rw [show s.m_readPos + (chunk1 + i) = s.m_capacity + i by
              omega,
            Nat.add_comm s.m_capacity i, Nat.add_mod_right,
            Nat.mod_eq_of_lt (by omega)]
      · next hnlt =>
        have hchr : chunk1 = r := by omega
        have hrend : r ≤ s.m_capacity - s.m_readPos := by omega
        rw [hchr, take_eq_map_range _ r
          (by rw [List.length_drop, hb]; omega)]
        refine List.map_congr_left fun i hi => ?_
        have hi' : i < r := List.mem_range.mp hi
        rw [getD_drop, Nat.mod_eq_of_lt (by omega)]
    have htake_len : s.contents.take len = s.contents.take r := by
      rcases Nat.le_total len a with hle | hge
      · rw [hrdef, min_eq_left hle]
      · rw [List.take_of_length_le (by rw [hconlen]; exact hge),
          hrdef, min_eq_right hge,
          List.take_of_length_le (le_of_eq hconlen)]
    have hout1 : out = s.contents.take r := by
      rw [houtmap]
      show _ = (Buffer.contents s).take r
      rw [Buffer.contents, ← ha,
        contents_take_core s.m_buffer s.m_capacity s.m_readPos a r hra]
    have hcont : Buffer.contents
        { s with
            m_readPos := (s.m_readPos + r) % s.m_capacity
            m_dataAvailable := s.m_dataAvailable - r } =
        s.contents.drop r := by
      rw [Buffer.contents, Buffer.contents, ← ha]
      show (List.range (a - r)).map _ = _
      rw [← contents_drop_core s.m_buffer s.m_capacity s.m_readPos a r
        hrp hra]
    refine ⟨rfl, hout1.trans htake_len.symm,
      ⟨hb, Nat.mod_lt _ hc, by show a - r ≤ s.m_capacity; omega, ?_⟩,
      rfl, rfl, rfl, hcont⟩
    show s.m_writePos =
      ((s.m_readPos + r) % s.m_capacity + (a - r)) % s.m_capacity
    rw [Nat.mod_add_mod, show s.m_readPos + r + (a - r) =
      s.m_readPos + a by omega, ← hwp]

/-- Behaviour of the occupied-count `Buffer::clear`. -/
theorem clear_spec_occ (s : Buffer) (h : Inv s) :
    Inv s.clear ∧ s.clear.m_dataAvailable = 0 ∧
      s.clear.contents = [] ∧ s.clear.m_capacity = s.m_capacity := by
  obtain ⟨hb, hrp, hda, hwp⟩ := h
  have hc : 0 < s.m_capacity := by omega
  refine ⟨⟨hb, hc, Nat.zero_le _, by simp [Buffer.clear]⟩, rfl, ?_, rfl⟩
  rw [Buffer.contents]
  simp [Buffer.clear]

/-- The freshly constructed occupied-count buffer. -/
theorem init_spec_occ (cap : Nat) (hc : 0 < cap) :
    Inv (Buffer.init cap) ∧ (Buffer.init cap).m_dataAvailable = 0 ∧
      (Buffer.init cap).contents = [] ∧
      (Buffer.init cap).m_capacity = cap := by
  refine ⟨⟨by simp [Buffer.init], hc, Nat.zero_le _,
    by simp [Buffer.init]⟩, rfl, ?_, rfl⟩
  rw [Buffer.contents]
  simp [Buffer.init]

end OccCount

/-! ## Sequential call sequences against a buffer -/

/-- One sequential call on a circular buffer. -/
inductive Op where
  | write (data : List Nat)
  | read (len : Nat)
  | clear
deriving Repr, DecidableEq

/-- What a caller observes from one call: the returned byte count, the
bytes delivered by a read, and the occupied count reported right after
the call. -/
inductive Obs where
  | wrote (count : Nat) (avail : Nat)
  | delivered (bytes : List Nat) (count : Nat) (avail : Nat)
  | cleared (avail : Nat)
deriving Repr, DecidableEq

/-- Run a call sequence against the full-flag buffer, collecting the
observations. -/
def runF (s : FullFlag.Buffer) : List Op → FullFlag.Buffer × List Obs
  | [] => (s, [])
  | Op.write data :: ops =>
    let w := s.write data
    let rest := runF w.1 ops
    (rest.1, Obs.wrote w.2 w.1.available :: rest.2)
  | Op.read len :: ops =>
    let r := s.read len
    let rest := runF r.1 ops
    (rest.1, Obs.delivered r.2.1 r.2.2 r.1.available :: rest.2)
  | Op.clear :: ops =>
    let rest := runF s.clear ops
    (rest.1, Obs.cleared s.clear.available :: rest.2)

/-- Run a call sequence against the occupied-count buffer, collecting
the observations. -/
def runO (s : OccCount.Buffer) : List Op → OccCount.Buffer × List Obs
  | [] => (s, [])
  | Op.write data :: ops =>
    let w := s.write data
    let rest := runO w.1 ops
    (rest.1, Obs.wrote w.2 w.1.getAvailable :: rest.2)
  | Op.read len :: ops =>
    let r := s.read len
    let rest := runO r.1 ops
    (rest.1, Obs.delivered r.2.1 r.2.2 r.1.getAvailable :: rest.2)
  | Op.clear :: ops =>
    let rest := runO s.clear ops
    (rest.1, Obs.cleared s.clear.getAvailable :: rest.2)

/-- Runs preserve the full-flag invariant and the capacity. -/
theorem runF_inv (ops : List Op) :
    ∀ s : FullFlag.Buffer, FullFlag.Inv s →
      FullFlag.Inv (runF s ops).1 ∧
        (runF s ops).1.mCapacity = s.mCapacity := by
  induction ops with
  | nil => intro s h; exact ⟨h, rfl⟩
  | cons op ops ih =>
    intro s h
    cases op with
    | write data =>
      obtain ⟨_, hi, hcap, _, _, _⟩ := FullFlag.write_spec s data h
      obtain ⟨h1, h2⟩ := ih _ hi
      exact ⟨h1, by rw [runF]; rw [h2, hcap]⟩
    | read len =>
      obtain ⟨_, _, hi, hcap, _, _, _, _⟩ := FullFlag.read_spec s len h
      obtain ⟨h1, h2⟩ := ih _ hi
      exact ⟨h1, by rw [runF]; rw [h2, hcap]⟩
    | clear =>
      obtain ⟨hi, _, _, hcap⟩ := FullFlag.clear_spec s h
      obtain ⟨h1, h2⟩ := ih _ hi
      exact ⟨h1, by rw [runF]; rw [h2, hcap]⟩

/-- Runs preserve the occupied-count invariant and the capacity. -/
theorem runO_inv (ops : List Op) :
    ∀ s : OccCount.Buffer, OccCount.Inv s →
      OccCount.Inv (runO s ops).1 ∧
        (runO s ops).1.m_capacity = s.m_capacity := by
  induction ops with
  | nil => intro s h; exact ⟨h, rfl⟩
  | cons op ops ih =>
    intro s h
    cases op with
    | write data =>
      obtain ⟨_, hi, hcap, _, _, _⟩ := OccCount.write_spec_occ s data h
      obtain ⟨h1, h2⟩ := ih _ hi
      exact ⟨h1, by rw [runO]; rw [h2, hcap]⟩
    | read len =>
      obtain ⟨_, _, hi, hcap, _, _, _⟩ := OccCount.read_spec_occ s len h
      obtain ⟨h1, h2⟩ := ih _ hi
      exact ⟨h1, by rw [runO]; rw [h2, hcap]⟩
    | clear =>
      obtain ⟨hi, _, _, hcap⟩ := OccCount.clear_spec_occ s h
      obtain ⟨h1, h2⟩ := ih _ hi
      exact ⟨h1, by rw [runO]; rw [h2, hcap]⟩

/-- Simulation: from any pair of states with equal capacity and equal
readable contents, the two buffer implementations produce identical
observation traces on every call sequence. -/
theorem run_equiv (ops : List Op) :
    ∀ (s1 : FullFlag.Buffer) (s2 : OccCount.Buffer),
      FullFlag.Inv s1 → OccCount.Inv s2 →
      s1.mCapacity = s2.m_capacity →
      s1.contents = s2.contents →
      (runF s1 ops).2 = (runO s2 ops).2 := by
  induction ops with
  | nil => intro s1 s2 _ _ _ _; rfl
  | cons op ops ih =>
    intro s1 s2 h1 h2 hcap hcon
    have havail : s1.getAvailableInternal = s2.m_dataAvailable := by
      rw [← FullFlag.contents_length, ← OccCount.contents_length_occ,
        hcon]
    cases op with
    | write data =>
      obtain ⟨hr1, hi1, hc1, _, ha1, hco1⟩ :=
        FullFlag.write_spec s1 data h1
      obtain ⟨hr2, hi2, hc2, _, ha2, hco2⟩ :=
        OccCount.write_spec_occ s2 data h2
      rw [runF, runO]
      have hmin : min data.length
            (s1.mCapacity - s1.getAvailableInternal) =
          min data.length (s2.m_capacity - s2.m_dataAvailable) := by
        rw [havail, hcap]
      refine congrArg₂ _ ?_ (ih _ _ hi1 hi2 (by rw [hc1, hc2, hcap])
        (by rw [hco1, hco2, hcon, hmin]))
      show Obs.wrote _ ((s1.write data).1.getAvailableInternal) =
        Obs.wrote _ ((s2.write data).1.m_dataAvailable)
      rw [hr1, hr2, ha1, ha2, hmin, havail]
    | read len =>
      obtain ⟨hr1, ho1, hi1, hc1, _, _, ha1, hco1⟩ :=
        FullFlag.read_spec s1 len h1
      obtain ⟨hr2, ho2, hi2, hc2, _, ha2, hco2⟩ :=
        OccCount.read_spec_occ s2 len h2
      rw [runF, runO]
      have hmin : min len s1.getAvailableInternal =
          min len s2.m_dataAvailable := by rw [havail]
      refine congrArg₂ _ ?_ (ih _ _ hi1 hi2 (by rw [hc1, hc2, hcap])
        (by rw [hco1, hco2, hcon, hmin]))
      show Obs.delivered _ _ ((s1.read len).1.getAvailableInternal) =
        Obs.delivered _ _ ((s2.read len).1.m_dataAvailable)
      rw [hr1, hr2, ho1, ho2, ha1, ha2, hmin, havail, hcon]
    | clear =>
      obtain ⟨hi1, ha1, hco1, hc1⟩ := FullFlag.clear_spec s1 h1
      obtain ⟨hi2, ha2, hco2, hc2⟩ := OccCount.clear_spec_occ s2 h2
      rw [runF, runO]
      refine congrArg₂ _ ?_ (ih _ _ hi1 hi2 (by rw [hc1, hc2, hcap])
        (by rw [hco1, hco2]))
      show Obs.cleared (s1.clear.getAvailableInternal) =
        Obs.cleared (s2.clear.m_dataAvailable)
      rw [ha1, ha2]

/-! ## Sequential sequences of queue calls -/

namespace ThreadSafeQueue

/-- Push a list of values in order (repeated `push` calls). -/
def pushAll (s : ThreadSafeQueue T) : List T → ThreadSafeQueue T
  | [] => s
  | v :: vs => pushAll (s.push v) vs

/-- Perform `n` `tryPop` calls, collecting the values obtained. -/
def popAll (s : ThreadSafeQueue T) : Nat → List T × ThreadSafeQueue T
  | 0 => ([], s)
  | n + 1 =>
    match s.tryPop with
    | (s', none) => ([], s')
    | (s', some v) =>
      let rest := popAll s' n
      (v :: rest.1, rest.2)

theorem pushAll_mQueue (vs : List T) :
    ∀ s : ThreadSafeQueue T, (pushAll s vs).mQueue = s.mQueue ++ vs := by
  induction vs with
  | nil => intro s; simp [pushAll]
  | cons v vs ih =>
    intro s
    rw [pushAll, ih, push]
    simp

theorem popAll_mQueue (n : Nat) :
    ∀ s : ThreadSafeQueue T, n ≤ s.mQueue.length →
      popAll s n = (s.mQueue.take n, ⟨s.mQueue.drop n⟩) := by
  induction n with
  | zero => intro s _; simp [popAll]
  | succ n ih =>
    intro s hn
    match s, hn with
    | ⟨x :: xs⟩, hn =>
      have hstep : popAll (⟨x :: xs⟩ : ThreadSafeQueue T) (n + 1) =
          (x :: (popAll (⟨xs⟩ : ThreadSafeQueue T) n).1,
            (popAll (⟨xs⟩ : ThreadSafeQueue T) n).2) := rfl
      rw [hstep, ih ⟨xs⟩ (by simpa using Nat.le_of_succ_le_succ hn)]
      simp

end ThreadSafeQueue

/-- One sequential call on the queue by a single thread: a `push` of a
value or a `tryPop`. -/
inductive QOp (T : Type) where
  | push (v : T)
  | pop
deriving Repr, DecidableEq

/-- Run an arbitrary interleaved sequence of pushes and pops against
the queue, collecting the values the pops obtained, in the order they
were read (a pop on an empty queue reports not-found and yields
nothing). -/
def runQ (s : ThreadSafeQueue T) :
    List (QOp T) → ThreadSafeQueue T × List T
  | [] => (s, [])
  | QOp.push v :: ops => runQ (s.push v) ops
  | QOp.pop :: ops =>
    let p := s.tryPop
    let rest := runQ p.1 ops
    (rest.1, p.2.toList ++ rest.2)

/-- The values pushed by a call sequence, in insertion order. -/
def pushedValues : List (QOp T) → List T
  | [] => []
  | QOp.push v :: ops => v :: pushedValues ops
  | QOp.pop :: ops => pushedValues ops

/-- Order preservation for every interleaved sequence of pushes and
pops: the values read, in read order, followed by the values still
queued, are exactly the initial queue contents followed by the pushed
values in insertion order. -/
theorem runQ_partition (ops : List (QOp T)) :
    ∀ s : ThreadSafeQueue T,
      (runQ s ops).2 ++ (runQ s ops).1.mQueue =
        s.mQueue ++ pushedValues ops := by
  induction ops with
  | nil => intro s; simp [runQ, pushedValues]
  | cons op ops ih =>
    intro s
    cases op with
    | push v =>
      rw [runQ, pushedValues, ih (s.push v), ThreadSafeQueue.push]
      simp
    | pop =>
      match s with
      | ⟨[]⟩ =>
        have hstep : runQ (⟨[]⟩ : ThreadSafeQueue T)
            (QOp.pop :: ops) = runQ (⟨[]⟩ : ThreadSafeQueue T) ops := by
          rw [runQ]
          simp [ThreadSafeQueue.tryPop]
        rw [hstep, pushedValues, ih ⟨[]⟩]
      | ⟨x :: xs⟩ =>
        have hstep : runQ (⟨x :: xs⟩ : ThreadSafeQueue T)
            (QOp.pop :: ops) =
            ((runQ (⟨xs⟩ : ThreadSafeQueue T) ops).1,
              x :: (runQ (⟨xs⟩ : ThreadSafeQueue T) ops).2) := rfl
        rw [hstep, pushedValues]
        show x :: ((runQ (⟨xs⟩ : ThreadSafeQueue T) ops).2 ++
          (runQ (⟨xs⟩ : ThreadSafeQueue T) ops).1.mQueue) = _
        rw [ih ⟨xs⟩]
        rfl

/-! ## One producer, one consumer, arbitrary interleaving -/

/-- Global state of the producer/consumer system of §8: the values the
producer has not yet pushed, the shared queue, and the values the
consumer has received from completed `waitAndPop` calls. -/
structure PCState (T : Type) where
  pending : List T
  queue : ThreadSafeQueue T
  received : List T
deriving Repr, DecidableEq

/-- Initial state: nothing pushed, nothing received. -/
def pcInit (vs : List T) : PCState T :=
  ⟨vs, ThreadSafeQueue.init T, []⟩

/-- One scheduler step. `true` runs the producer: it pushes its next
value, if any remain. `false` runs the consumer: its `waitAndPop`
completes when the queue is non-empty; on an empty queue the consumer
stays suspended on the condition variable and nothing changes. -/
def pcStep (s : PCState T) (b : Bool) : PCState T :=
  if b then
    match s.pending with
    | [] => s
    | v :: rest =>
      { s with pending := rest, queue := s.queue.push v }
  else
    if s.queue.empty then s
    else
      { s with
          queue := s.queue.waitAndPop.1
          received := s.received ++ s.queue.waitAndPop.2.toList }

/-- Run a whole schedule (an arbitrary interleaving of the two
threads). -/
def pcRun (s : PCState T) : List Bool → PCState T
  | [] => s
  | b :: sched => pcRun (pcStep s b) sched

theorem pcStep_partition (s : PCState T) (b : Bool) :
    (pcStep s b).received ++ (pcStep s b).queue.mQueue ++
        (pcStep s b).pending =
      s.received ++ s.queue.mQueue ++ s.pending := by
  cases b with
  | true =>
    rw [pcStep, if_pos rfl]
    match s with
    | ⟨[], q, r⟩ => rfl
    | ⟨v :: rest, q, r⟩ => simp [ThreadSafeQueue.push]
  | false =>
    rw [pcStep, if_neg (by simp)]
    match s with
    | ⟨p, ⟨[]⟩, r⟩ => rfl
    | ⟨p, ⟨x :: xs⟩, r⟩ =>
      simp [ThreadSafeQueue.empty, ThreadSafeQueue.waitAndPop]

theorem pcRun_partition (sched : List Bool) :
    ∀ s : PCState T,
      (pcRun s sched).received ++ (pcRun s sched).queue.mQueue ++
          (pcRun s sched).pending =
        s.received ++ s.queue.mQueue ++ s.pending := by
  induction sched with
  | nil => intro s; rfl
  | cons b sched ih =>
    intro s
    rw [pcRun, ih, pcStep_partition]

/-! ## Write/read ledger over an observation trace -/

/-- Sum of the counts returned by the write calls in a trace. -/
def sumWrites : List Obs → Nat
  | [] => 0
  | Obs.wrote c _ :: rest => c + sumWrites rest
  | Obs.delivered _ _ _ :: rest => sumWrites rest
  | Obs.cleared _ :: rest => sumWrites rest

/-- Sum of the counts returned by the read calls in a trace. -/
def sumReads : List Obs → Nat
  | [] => 0
  | Obs.wrote _ _ :: rest => sumReads rest
  | Obs.delivered _ c _ :: rest => c + sumReads rest
  | Obs.cleared _ :: rest => sumReads rest

/-- Ledger for the full-flag buffer: over clear-free call sequences the
occupied count moves exactly by the returned write and read counts. -/
theorem runF_ledger (ops : List Op) :
    ∀ s : FullFlag.Buffer, FullFlag.Inv s → Op.clear ∉ ops →
      (runF s ops).1.getAvailableInternal + sumReads (runF s ops).2 =
        s.getAvailableInternal + sumWrites (runF s ops).2 := by
  induction ops with
  | nil => intro s _ _; rfl
  | cons op ops ih =>
    intro s h hnc
    have hnc1 : Op.clear ∉ ops := fun hx => hnc (List.mem_cons_of_mem _ hx)
    cases op with
    | write data =>
      obtain ⟨hr, hi, _, _, ha, _⟩ := FullFlag.write_spec s data h
      have := ih _ hi hnc1
      rw [runF]
      show (runF (s.write data).1 ops).1.getAvailableInternal +
          sumReads (Obs.wrote (s.write data).2 _ ::
            (runF (s.write data).1 ops).2) = _
      rw [sumWrites, sumReads]
      omega
    | read len =>
      obtain ⟨hr, _, hi, _, _, _, ha, _⟩ := FullFlag.read_spec s len h
      have := ih _ hi hnc1
      have hle : min len s.getAvailableInternal ≤
          s.getAvailableInternal := Nat.min_le_right _ _
      rw [runF]
      show (runF (s.read len).1 ops).1.getAvailableInternal +
          sumReads (Obs.delivered _ (s.read len).2.2 _ ::
            (runF (s.read len).1 ops).2) = _
      rw [sumWrites, sumReads]
      omega
    | clear => exact absurd (List.mem_cons_self _ _) hnc

/-- Ledger for the occupied-count buffer. -/
theorem runO_ledger (ops : List Op) :
    ∀ s : OccCount.Buffer, OccCount.Inv s → Op.clear ∉ ops →
      (runO s ops).1.m_dataAvailable + sumReads (runO s ops).2 =
        s.m_dataAvailable + sumWrites (runO s ops).2 := by
  induction ops with
  | nil => intro s _ _; rfl
  | cons op ops ih =>
    intro s h hnc
    have hnc1 : Op.clear ∉ ops := fun hx => hnc (List.mem_cons_of_mem _ hx)
    cases op with
    | write data =>
      obtain ⟨hr, hi, _, _, ha, _⟩ := OccCount.write_spec_occ s data h
      have := ih _ hi hnc1
      rw [runO]
      show (runO (s.write data).1 ops).1.m_dataAvailable +
          sumReads (Obs.wrote (s.write data).2 _ ::
            (runO (s.write data).1 ops).2) = _
      rw [sumWrites, sumReads]
      omega
    | read len =>
      obtain ⟨hr, _, hi, _, _, ha, _⟩ := OccCount.read_spec_occ s len h
      have := ih _ hi hnc1
      have hle : min len s.m_dataAvailable ≤ s.m_dataAvailable :=
        Nat.min_le_right _ _
      rw [runO]
      show (runO (s.read len).1 ops).1.m_dataAvailable +
          sumReads (Obs.delivered _ (s.read len).2.2 _ ::
            (runO (s.read len).1 ops).2) = _
      rw [sumWrites, sumReads]
      omega
    | clear => exact absurd (List.mem_cons_self _ _) hnc

/-! ## Helper: a full fill-then-drain cycle from an empty buffer -/

theorem fill_drain_core (s0 : FullFlag.Buffer) (data : List Nat)
    (h : FullFlag.Inv s0) (ha0 : s0.getAvailableInternal = 0)
    (hc0 : s0.contents = []) (hlen : data.length = s0.mCapacity) :
    (s0.write data).2 = s0.mCapacity ∧
      (s0.write data).1.getAvailableInternal = s0.mCapacity ∧
      (s0.write data).1.mCapacity = s0.mCapacity ∧
      FullFlag.Inv (s0.write data).1 ∧
      ((s0.write data).1.read s0.mCapacity).2.1 = data ∧
      ((s0.write data).1.read s0.mCapacity).1.getAvailableInternal
        = 0 ∧
      FullFlag.Inv ((s0.write data).1.read s0.mCapacity).1 := by
  obtain ⟨hr1, hi1, hcap1, _, ha1, hco1⟩ := FullFlag.write_spec s0 data h
  have hmin : min data.length
      (s0.mCapacity - s0.getAvailableInternal) = s0.mCapacity := by
    rw [ha0, hlen]; simp
  rw [hmin] at hr1 ha1 hco1
  rw [ha0] at ha1
  have ha1' : (s0.write data).1.getAvailableInternal = s0.mCapacity :=
    by omega
  have hco1' : (s0.write data).1.contents = data := by
    rw [hco1, hc0, List.take_of_length_le (le_of_eq hlen)]
    simp
  obtain ⟨hr2, ho2, hi2, _, _, _, ha2, _⟩ :=
    FullFlag.read_spec (s0.write data).1 s0.mCapacity hi1
  have hmin2 : min s0.mCapacity
      (s0.write data).1.getAvailableInternal = s0.mCapacity := by
    rw [ha1']; simp
  rw [hmin2] at hr2 ha2
  refine ⟨hr1, ha1', hcap1, hi1, ?_, ?_, hi2⟩
  · rw [ho2, hco1', List.take_of_length_le (le_of_eq hlen)]
  · rw [ha2, ha1']
    omega

/-! ## The claims -/

/-- C1: writing a byte sequence of length `n ≤ capacity` into a fresh
(empty) circular buffer returns `n`, and then reading `n` bytes back
returns `n` and delivers exactly the written bytes in order. -/
theorem c1_write_read_roundtrip (cap : Nat) (bs : List Nat)
    (hc : 0 < cap) (hlen : bs.length ≤ cap) :
    ((FullFlag.Buffer.init cap).write bs).2 = bs.length ∧
      (((FullFlag.Buffer.init cap).write bs).1.read bs.length).2.1 =
        bs ∧
      (((FullFlag.Buffer.init cap).write bs).1.read bs.length).2.2 =
        bs.length := by
  obtain ⟨hi0, ha0, hc0, hcap0⟩ := FullFlag.init_spec cap hc
  obtain ⟨hr1, hi1, _, _, ha1, hco1⟩ :=
    FullFlag.write_spec (FullFlag.Buffer.init cap) bs hi0
  rw [ha0, hcap0] at hr1 ha1 hco1
  have hmin : min bs.length (cap - 0) = bs.length := by
    rw [Nat.sub_zero]
    exact min_eq_left hlen
  rw [hmin] at hr1 ha1 hco1
  rw [hc0] at hco1
  have hco1' : ((FullFlag.Buffer.init cap).write bs).1.contents = bs := by
    rw [hco1]
    simp
  obtain ⟨hr2, ho2, _, _, _, _, _, _⟩ :=
    FullFlag.read_spec ((FullFlag.Buffer.init cap).write bs).1
      bs.length hi1
  refine ⟨hr1, ?_, ?_⟩
  · rw [ho2, hco1']
    simp
  · rw [hr2, ha1]
    simp

/-- C1 witness: capacity 4, bytes `[5, 6, 7]`. -/
theorem c1_write_read_roundtrip_witness :
    ((FullFlag.Buffer.init 4).write [5, 6, 7]).2 = [5, 6, 7].length ∧
      (((FullFlag.Buffer.init 4).write [5, 6, 7]).1.read
        [5, 6, 7].length).2.1 = [5, 6, 7] ∧
      (((FullFlag.Buffer.init 4).write [5, 6, 7]).1.read
        [5, 6, 7].length).2.2 = [5, 6, 7].length :=
  c1_write_read_roundtrip 4 [5, 6, 7] (by decide) (by decide)

/-- C2: the concrete capacity-10 wrap-around scenario — write
`{1..8}`, read 6 (getting `{1..6}`, leaving 2 available), write
`{9,10,11,12}` (all 4 fit), read 6 (getting exactly `{7,...,12}` in
order) — on both buffer implementations. -/
theorem c2_wraparound :
    (let s0 := FullFlag.Buffer.init 10
    let w1 := s0.write [1, 2, 3, 4, 5, 6, 7, 8]
    let r1 := w1.1.read 6
    let w2 := r1.1.write [9, 10, 11, 12]
    let r2 := w2.1.read 6
    w1.2 = 8 ∧ r1.2.1 = [1, 2, 3, 4, 5, 6] ∧ r1.2.2 = 6 ∧
      r1.1.available = 2 ∧ w2.2 = 4 ∧ w2.1.available = 6 ∧
      r2.2.1 = [7, 8, 9, 10, 11, 12] ∧ r2.2.2 = 6) ∧
    (let s0 := OccCount.Buffer.init 10
    let w1 := s0.write [1, 2, 3, 4, 5, 6, 7, 8]
    let r1 := w1.1.read 6
    let w2 := r1.1.write [9, 10, 11, 12]
    let r2 := w2.1.read 6
    w1.2 = 8 ∧ r1.2.1 = [1, 2, 3, 4, 5, 6] ∧ r1.2.2 = 6 ∧
      r1.1.getAvailable = 2 ∧ w2.2 = 4 ∧ w2.1.getAvailable = 6 ∧
      r2.2.1 = [7, 8, 9, 10, 11, 12] ∧ r2.2.2 = 6) := by
  exact ⟨⟨rfl, rfl, rfl, rfl, rfl, rfl, rfl, rfl⟩,
    ⟨rfl, rfl, rfl, rfl, rfl, rfl, rfl, rfl⟩⟩

/-- C3: `write(data, len)` returns exactly
`min(len, capacity - occupied)` on both implementations and copies
exactly that prefix of `data` into the readable stream; in particular a
capacity-10 buffer holding 8 bytes accepts only 2 of 5 further bytes
and then reports 10 available. -/
theorem c3_partial_write :
    (∀ (s : FullFlag.Buffer) (data : List Nat),
      (s.write data).2 =
        min data.length (s.mCapacity - s.getAvailableInternal)) ∧
    (∀ (s : OccCount.Buffer) (data : List Nat),
      (s.write data).2 =
        min data.length (s.m_capacity - s.m_dataAvailable)) ∧
    (∀ (s : FullFlag.Buffer) (data : List Nat), FullFlag.Inv s →
      (s.write data).1.contents = s.contents ++ data.take
        (min data.length (s.mCapacity - s.getAvailableInternal))) ∧
    (∀ (s : OccCount.Buffer) (data : List Nat), OccCount.Inv s →
      (s.write data).1.contents = s.contents ++ data.take
        (min data.length (s.m_capacity - s.m_dataAvailable))) ∧
    (let s8 := ((FullFlag.Buffer.init 10).write
      [1, 2, 3, 4, 5, 6, 7, 8]).1
    (s8.write [1, 2, 3, 4, 5]).2 = 2 ∧
      (s8.write [1, 2, 3, 4, 5]).1.available = 10) ∧
    (let s8 := ((OccCount.Buffer.init 10).write
      [1, 2, 3, 4, 5, 6, 7, 8]).1
    (s8.write [1, 2, 3, 4, 5]).2 = 2 ∧
      (s8.write [1, 2, 3, 4, 5]).1.getAvailable = 10) := by
  refine ⟨?_, ?_, ?_, ?_, ⟨rfl, rfl⟩, ⟨rfl, rfl⟩⟩
  · intro s data
    by_cases h : min data.length
        (s.mCapacity - s.getAvailableInternal) = 0
    · rw [FullFlag.write_eq_of_zero s data h, h]
    · rw [FullFlag.write_eq_of_pos s data h]
  · intro s data
    by_cases h : min data.length (s.m_capacity - s.m_dataAvailable) = 0
    · rw [OccCount.write_eq_of_zero_occ s data h, h]
    · rw [OccCount.write_eq_of_pos_occ s data _ rfl h _ rfl _ rfl]
  · intro s data h
    exact (FullFlag.write_spec s data h).2.2.2.2.2
  · intro s data h
    exact (OccCount.write_spec_occ s data h).2.2.2.2.2

/-- C3 witness: the general clauses instantiated at a concrete
invariant-satisfying state. -/
theorem c3_partial_write_witness :
    FullFlag.Inv (FullFlag.Buffer.init 3) ∧
      ((FullFlag.Buffer.init 3).write [7, 7]).1.contents =
        (FullFlag.Buffer.init 3).contents ++ [7, 7].take
          (min [7, 7].length ((FullFlag.Buffer.init 3).mCapacity -
            (FullFlag.Buffer.init 3).getAvailableInternal)) ∧
      OccCount.Inv (OccCount.Buffer.init 3) ∧
      ((OccCount.Buffer.init 3).write [7, 7]).1.contents =
        (OccCount.Buffer.init 3).contents ++ [7, 7].take
          (min [7, 7].length ((OccCount.Buffer.init 3).m_capacity -
            (OccCount.Buffer.init 3).m_dataAvailable)) :=
  ⟨by decide,
    c3_partial_write.2.2.1 (FullFlag.Buffer.init 3) [7, 7] (by decide),
    by decide,
    c3_partial_write.2.2.2.1 (OccCount.Buffer.init 3) [7, 7]
      (by decide)⟩

/-- C4: filling a fresh buffer exactly to capacity reports
`available() == capacity()` with coinciding cursors, draining it
exactly empty reports `available() == 0` again with coinciding
cursors, and after `clear()` (from any invariant state of that
capacity) a full fill-then-drain cycle returns the written bytes
uncorrupted. -/
theorem c4_empty_full_disambiguation (cap : Nat) (data : List Nat)
    (hc : 0 < cap) (hlen : data.length = cap) :
    ((FullFlag.Buffer.init cap).write data).2 = cap ∧
      ((FullFlag.Buffer.init cap).write data).1.available =
        ((FullFlag.Buffer.init cap).write data).1.capacity ∧
      ((FullFlag.Buffer.init cap).write data).1.mHead =
        ((FullFlag.Buffer.init cap).write data).1.mTail ∧
      (((FullFlag.Buffer.init cap).write data).1.read cap).2.1 =
        data ∧
      (((FullFlag.Buffer.init cap).write data).1.read cap).1.available
        = 0 ∧
      (((FullFlag.Buffer.init cap).write data).1.read cap).1.mHead =
        (((FullFlag.Buffer.init cap).write data).1.read cap).1.mTail ∧
      ∀ s : FullFlag.Buffer, FullFlag.Inv s → s.mCapacity = cap →
        (s.clear.write data).2 = cap ∧
          ((s.clear.write data).1.read cap).2.1 = data ∧
          ((s.clear.write data).1.read cap).1.available = 0 := by
  obtain ⟨hi0, ha0, hc0, hcap0⟩ := FullFlag.init_spec cap hc
  obtain ⟨hr1, ha1, hcap1, hi1, ho2, ha2, hi2⟩ :=
    fill_drain_core (FullFlag.Buffer.init cap) data hi0 ha0 hc0
      (hlen.trans hcap0.symm)
  rw [hcap0] at hr1 ha1 hcap1
  have hfull1 : ((FullFlag.Buffer.init cap).write data).1.mIsFull =
      true :=
    (FullFlag.avail_eq_cap_iff _ hi1).mp (by rw [ha1, hcap1])
  obtain ⟨_, _, _, hf1⟩ := hi1
  have hhd1 := hf1 hfull1
  have hempty2 :
      (((FullFlag.Buffer.init cap).write data).1.read
        (FullFlag.Buffer.init cap).mCapacity).1.isEmptyInternal =
      true :=
    (FullFlag.avail_eq_zero_iff _ hi2).mp ha2
  have hhd2 : (((FullFlag.Buffer.init cap).write data).1.read
        (FullFlag.Buffer.init cap).mCapacity).1.mHead =
      (((FullFlag.Buffer.init cap).write data).1.read
        (FullFlag.Buffer.init cap).mCapacity).1.mTail := by
    rw [FullFlag.Buffer.isEmptyInternal, Bool.and_eq_true] at hempty2
    exact beq_iff_eq.mp hempty2.2
  refine ⟨hr1, ?_, hhd1, ho2, ha2, hhd2, ?_⟩
  · show _ = ((FullFlag.Buffer.init cap).write data).1.mCapacity
    rw [hcap1]
    exact ha1
  · intro s hs hscap
    obtain ⟨hic, hac, hcc, hcapc⟩ := FullFlag.clear_spec s hs
    have hlenc : data.length = s.clear.mCapacity := by
      rw [hlen, ← hscap]
      exact hcapc.symm ▸ rfl
    obtain ⟨hrc, _, _, _, hoc, hac2, _⟩ :=
      fill_drain_core s.clear data hic hac hcc hlenc
    have hccap : s.clear.mCapacity = cap := hcapc.trans hscap
    rw [hccap] at hrc hoc hac2
    exact ⟨hrc, hoc, hac2⟩

/-- C4 witness: capacity 3, bytes `[4, 5, 6]`. -/
theorem c4_empty_full_disambiguation_witness :
    ((FullFlag.Buffer.init 3).write [4, 5, 6]).2 = 3 ∧
      ((FullFlag.Buffer.init 3).write [4, 5, 6]).1.available =
        ((FullFlag.Buffer.init 3).write [4, 5, 6]).1.capacity ∧
      ((FullFlag.Buffer.init 3).write [4, 5, 6]).1.mHead =
        ((FullFlag.Buffer.init 3).write [4, 5, 6]).1.mTail ∧
      (((FullFlag.Buffer.init 3).write [4, 5, 6]).1.read 3).2.1 =
        [4, 5, 6] ∧
      (((FullFlag.Buffer.init 3).write [4, 5, 6]).1.read 3).1.available
        = 0 ∧
      (((FullFlag.Buffer.init 3).write [4, 5, 6]).1.read 3).1.mHead =
        (((FullFlag.Buffer.init 3).write [4, 5, 6]).1.read 3).1.mTail ∧
      ∀ s : FullFlag.Buffer, FullFlag.Inv s → s.mCapacity = 3 →
        (s.clear.write [4, 5, 6]).2 = 3 ∧
          ((s.clear.write [4, 5, 6]).1.read 3).2.1 = [4, 5, 6] ∧
          ((s.clear.write [4, 5, 6]).1.read 3).1.available = 0 :=
  c4_empty_full_disambiguation 3 [4, 5, 6] (by decide) (by decide)

/-- C5: write, read and clear preserve the structural invariant; under
it the occupied count is at most the capacity, the buffer is full iff
the count equals the capacity and empty iff it is zero; consequently
`available() ≤ capacity()` holds after every call sequence from a fresh
buffer. -/
theorem c5_invariant_preservation (s : FullFlag.Buffer)
    (data : List Nat) (len : Nat) (h : FullFlag.Inv s) :
    FullFlag.Inv (s.write data).1 ∧ FullFlag.Inv (s.read len).1 ∧
      FullFlag.Inv s.clear ∧
      s.getAvailableInternal ≤ s.mCapacity ∧
      (s.isFullInternal = true ↔
        s.getAvailableInternal = s.mCapacity) ∧
      (s.isEmptyInternal = true ↔ s.getAvailableInternal = 0) ∧
      ∀ (cap : Nat) (ops : List Op), 0 < cap →
        (runF (FullFlag.Buffer.init cap) ops).1.available ≤
          (runF (FullFlag.Buffer.init cap) ops).1.capacity := by
  refine ⟨(FullFlag.write_spec s data h).2.1,
    (FullFlag.read_spec s len h).2.2.1,
    (FullFlag.clear_spec s h).1,
    FullFlag.avail_le_cap s h, ?_, ?_, ?_⟩
  · rw [FullFlag.Buffer.isFullInternal]
    exact (FullFlag.avail_eq_cap_iff s h).symm
  · exact (FullFlag.avail_eq_zero_iff s h).symm
  · intro cap ops hcap
    obtain ⟨hi0, _, _, _⟩ := FullFlag.init_spec cap hcap
    obtain ⟨hinv, _⟩ := runF_inv ops (FullFlag.Buffer.init cap) hi0
    exact FullFlag.avail_le_cap _ hinv

/-- C5 witness: a concrete invariant-satisfying capacity-2 state. -/
theorem c5_invariant_preservation_witness :
    FullFlag.Inv ((⟨[0, 0], 1, 0, false, 2⟩ :
        FullFlag.Buffer).write [9]).1 ∧
      FullFlag.Inv ((⟨[0, 0], 1, 0, false, 2⟩ :
        FullFlag.Buffer).read 1).1 ∧
      FullFlag.Inv (⟨[0, 0], 1, 0, false, 2⟩ :
        FullFlag.Buffer).clear ∧
      (⟨[0, 0], 1, 0, false, 2⟩ :
        FullFlag.Buffer).getAvailableInternal ≤
        (⟨[0, 0], 1, 0, false, 2⟩ : FullFlag.Buffer).mCapacity ∧
      ((⟨[0, 0], 1, 0, false, 2⟩ :
          FullFlag.Buffer).isFullInternal = true ↔
        (⟨[0, 0], 1, 0, false, 2⟩ :
          FullFlag.Buffer).getAvailableInternal =
          (⟨[0, 0], 1, 0, false, 2⟩ : FullFlag.Buffer).mCapacity) ∧
      ((⟨[0, 0], 1, 0, false, 2⟩ :
          FullFlag.Buffer).isEmptyInternal = true ↔
        (⟨[0, 0], 1, 0, false, 2⟩ :
          FullFlag.Buffer).getAvailableInternal = 0) ∧
      ∀ (cap : Nat) (ops : List Op), 0 < cap →
        (runF (FullFlag.Buffer.init cap) ops).1.available ≤
          (runF (FullFlag.Buffer.init cap) ops).1.capacity :=
  c5_invariant_preservation ⟨[0, 0], 1, 0, false, 2⟩ [9] 1 (by decide)

/-- C6: the queue is strict FIFO — the concrete push 1,2,3 /
pop,pop,pop scenario yields 1, 2, 3; for every sequential sequence of
interleaved pushes and pops from a fresh queue, the values read (in
read order) followed by the values still queued are exactly the pushed
values in insertion order, so the read sequence is always the prefix of
the insertion sequence of its length; and pushing a whole list then
popping it all returns exactly that list. -/
theorem c6_fifo_order :
    (let q3 := (((ThreadSafeQueue.init Nat).push 1).push 2).push 3
    let p1 := q3.tryPop
    let p2 := p1.1.tryPop
    let p3 := p2.1.tryPop
    p1.2 = some 1 ∧ p2.2 = some 2 ∧ p3.2 = some 3 ∧
      p3.1.mQueue = []) ∧
      (∀ (T : Type) (ops : List (QOp T)),
        (runQ (ThreadSafeQueue.init T) ops).2 ++
            (runQ (ThreadSafeQueue.init T) ops).1.mQueue =
          pushedValues ops ∧
        (runQ (ThreadSafeQueue.init T) ops).2 =
          (pushedValues ops).take
            (runQ (ThreadSafeQueue.init T) ops).2.length) ∧
      ∀ (T : Type) (vs : List T),
        (ThreadSafeQueue.pushAll (ThreadSafeQueue.init T) vs).popAll
          vs.length = (vs, ThreadSafeQueue.init T) := by
  refine ⟨⟨rfl, rfl, rfl, rfl⟩, ?_, ?_⟩
  · intro T ops
    have hpart := runQ_partition ops (ThreadSafeQueue.init T)
    rw [show (ThreadSafeQueue.init T).mQueue = ([] : List T) from rfl,
      List.nil_append] at hpart
    refine ⟨hpart, ?_⟩
    conv_rhs => rw [← hpart]
    rw [List.take_left' rfl]
  · intro T vs
    have hq : (ThreadSafeQueue.pushAll
        (ThreadSafeQueue.init T) vs).mQueue = vs := by
      rw [ThreadSafeQueue.pushAll_mQueue]
      exact List.nil_append vs
    rw [ThreadSafeQueue.popAll_mQueue vs.length _ (by rw [hq]), hq]
    simp [ThreadSafeQueue.init]

/-- C7: `tryPop` on a freshly constructed queue reports not-found and
changes nothing (it never suspends — it is a total function of the
state); on a non-empty queue it removes and returns the front value. -/
theorem c7_trypop_semantics :
    (∀ (T : Type), (ThreadSafeQueue.init T).tryPop =
      (ThreadSafeQueue.init T, none)) ∧
      ∀ (T : Type) (x : T) (xs : List T),
        (ThreadSafeQueue.mk (x :: xs)).tryPop =
          (ThreadSafeQueue.mk xs, some x) :=
  ⟨fun _ => rfl, fun _ _ _ => rfl⟩

/-- C8: the two circular-buffer implementations are observationally
equivalent — for every sequential sequence of write/read/clear calls
from fresh buffers of the same capacity, both produce identical
observation traces (write counts, read bytes and counts, and reported
occupied counts). -/
theorem c8_observational_equivalence (cap : Nat) (ops : List Op)
    (hc : 0 < cap) :
    (runF (FullFlag.Buffer.init cap) ops).2 =
      (runO (OccCount.Buffer.init cap) ops).2 := by
  obtain ⟨hi1, _, hc1, hcap1⟩ := FullFlag.init_spec cap hc
  obtain ⟨hi2, _, hc2, hcap2⟩ := OccCount.init_spec_occ cap hc
  exact run_equiv ops _ _ hi1 hi2 (by rw [hcap1, hcap2])
    (by rw [hc1, hc2])

/-- C8 witness: capacity 3, a five-call sequence with wrap-around,
partial write, over-long read and clear. -/
theorem c8_observational_equivalence_witness :
    (runF (FullFlag.Buffer.init 3)
        [Op.write [1, 2], Op.read 1, Op.write [3, 4, 5], Op.read 9,
          Op.clear]).2 =
      (runO (OccCount.Buffer.init 3)
        [Op.write [1, 2], Op.read 1, Op.write [3, 4, 5], Op.read 9,
          Op.clear]).2 :=
  c8_observational_equivalence 3
    [Op.write [1, 2], Op.read 1, Op.write [3, 4, 5], Op.read 9,
      Op.clear] (by decide)

/-- C9: under every interleaving of the producer's `push` calls and the
consumer's `waitAndPop` calls, no value is lost or duplicated — the
received values, the queued values and the not-yet-pushed values always
partition the produced sequence in order, and a consumer that has
received all of them holds exactly the produced sequence. -/
theorem c9_producer_consumer_no_loss (vs : List Nat)
    (sched : List Bool) :
    (pcRun (pcInit vs) sched).received ++
        (pcRun (pcInit vs) sched).queue.mQueue ++
        (pcRun (pcInit vs) sched).pending = vs ∧
      ((pcRun (pcInit vs) sched).received.length = vs.length →
        (pcRun (pcInit vs) sched).received = vs) := by
  have hpart := pcRun_partition sched (pcInit vs)
  have hinit : (pcInit vs).received ++ (pcInit vs).queue.mQueue ++
      (pcInit vs).pending = vs := rfl
  rw [hinit] at hpart
  refine ⟨hpart, fun hlen => ?_⟩
  have htot := congrArg List.length hpart
  simp only [List.length_append] at htot
  have hq : (pcRun (pcInit vs) sched).queue.mQueue = [] :=
    List.eq_nil_of_length_eq_zero (by omega)
  have hp : (pcRun (pcInit vs) sched).pending = [] :=
    List.eq_nil_of_length_eq_zero (by omega)
  rw [hq, hp, List.append_nil, List.append_nil] at hpart
  exact hpart

/-- C9 witness: two values, a four-step schedule that delivers both. -/
theorem c9_producer_consumer_no_loss_witness :
    (pcRun (pcInit [0, 1]) [true, false, true, false]).received ++
        (pcRun (pcInit [0, 1])
          [true, false, true, false]).queue.mQueue ++
        (pcRun (pcInit [0, 1]) [true, false, true, false]).pending =
        [0, 1] ∧
      ((pcRun (pcInit [0, 1])
          [true, false, true, false]).received.length =
          ([0, 1] : List Nat).length →
        (pcRun (pcInit [0, 1]) [true, false, true, false]).received =
          [0, 1]) :=
  c9_producer_consumer_no_loss [0, 1] [true, false, true, false]

/-- C10: after any clear-free sequence of write and read calls from
construction or from a `clear()`, the reported occupied count equals
the sum of the write-returned counts minus the sum of the
read-returned counts, on both implementations. -/
theorem c10_available_ledger (cap : Nat) (ops : List Op) (hc : 0 < cap)
    (hnc : Op.clear ∉ ops) :
    ((runF (FullFlag.Buffer.init cap) ops).1.available =
        sumWrites (runF (FullFlag.Buffer.init cap) ops).2 -
          sumReads (runF (FullFlag.Buffer.init cap) ops).2 ∧
      sumReads (runF (FullFlag.Buffer.init cap) ops).2 ≤
        sumWrites (runF (FullFlag.Buffer.init cap) ops).2) ∧
    (∀ s : FullFlag.Buffer, FullFlag.Inv s →
      (runF s.clear ops).1.available =
          sumWrites (runF s.clear ops).2 -
            sumReads (runF s.clear ops).2 ∧
        sumReads (runF s.clear ops).2 ≤
          sumWrites (runF s.clear ops).2) ∧
    ((runO (OccCount.Buffer.init cap) ops).1.getAvailable =
        sumWrites (runO (OccCount.Buffer.init cap) ops).2 -
          sumReads (runO (OccCount.Buffer.init cap) ops).2 ∧
      sumReads (runO (OccCount.Buffer.init cap) ops).2 ≤
        sumWrites (runO (OccCount.Buffer.init cap) ops).2) ∧
    ∀ s : OccCount.Buffer, OccCount.Inv s →
      (runO s.clear ops).1.getAvailable =
          sumWrites (runO s.clear ops).2 -
            sumReads (runO s.clear ops).2 ∧
        sumReads (runO s.clear ops).2 ≤
          sumWrites (runO s.clear ops).2 := by
  refine ⟨?_, ?_, ?_, ?_⟩
  · obtain ⟨hi0, ha0, _, _⟩ := FullFlag.init_spec cap hc
    have hl := runF_ledger ops _ hi0 hnc
    rw [ha0] at hl
    constructor
    · show (runF (FullFlag.Buffer.init cap) ops).1.getAvailableInternal
        = _
      omega
    · omega
  · intro s hs
    obtain ⟨hic, hac, _, _⟩ := FullFlag.clear_spec s hs
    have hl := runF_ledger ops _ hic hnc
    rw [hac] at hl
    constructor
    · show (runF s.clear ops).1.getAvailableInternal = _
      omega
    · omega
  · obtain ⟨hi0, ha0, _, _⟩ := OccCount.init_spec_occ cap hc
    have hl := runO_ledger ops _ hi0 hnc
    rw [ha0] at hl
    constructor
    · show (runO (OccCount.Buffer.init cap) ops).1.m_dataAvailable = _
      omega
    · omega
  · intro s hs
    obtain ⟨hic, hac, _, _⟩ := OccCount.clear_spec_occ s hs
    have hl := runO_ledger ops _ hic hnc
    rw [hac] at hl
    constructor
    · show (runO s.clear ops).1.m_dataAvailable = _
      omega
    · omega

/-- C10 witness: capacity 2, a write of three bytes then a read of one
byte. -/
theorem c10_available_ledger_witness :
    ((runF (FullFlag.Buffer.init 2)
        [Op.write [1, 2, 3], Op.read 1]).1.available =
        sumWrites (runF (FullFlag.Buffer.init 2)
          [Op.write [1, 2, 3], Op.read 1]).2 -
          sumReads (runF (FullFlag.Buffer.init 2)
            [Op.write [1, 2, 3], Op.read 1]).2 ∧
      sumReads (runF (FullFlag.Buffer.init 2)
          [Op.write [1, 2, 3], Op.read 1]).2 ≤
        sumWrites (runF (FullFlag.Buffer.init 2)
          [Op.write [1, 2, 3], Op.read 1]).2) ∧
    (∀ s : FullFlag.Buffer, FullFlag.Inv s →
      (runF s.clear [Op.write [1, 2, 3], Op.read 1]).1.available =
          sumWrites (runF s.clear [Op.write [1, 2, 3], Op.read 1]).2 -
            sumReads (runF s.clear [Op.write [1, 2, 3], Op.read 1]).2 ∧
        sumReads (runF s.clear [Op.write [1, 2, 3], Op.read 1]).2 ≤
          sumWrites (runF s.clear [Op.write [1, 2, 3], Op.read 1]).2) ∧
    ((runO (OccCount.Buffer.init 2)
        [Op.write [1, 2, 3], Op.read 1]).1.getAvailable =
        sumWrites (runO (OccCount.Buffer.init 2)
          [Op.write [1, 2, 3], Op.read 1]).2 -
          sumReads (runO (OccCount.Buffer.init 2)
            [Op.write [1, 2, 3], Op.read 1]).2 ∧
      sumReads (runO (OccCount.Buffer.init 2)
          [Op.write [1, 2, 3], Op.read 1]).2 ≤
        sumWrites (runO (OccCount.Buffer.init 2)
          [Op.write [1, 2, 3], Op.read 1]).2) ∧
    ∀ s : OccCount.Buffer, OccCount.Inv s →
      (runO s.clear [Op.write [1, 2, 3], Op.read 1]).1.getAvailable =
          sumWrites (runO s.clear [Op.write [1, 2, 3], Op.read 1]).2 -
            sumReads (runO s.clear [Op.write [1, 2, 3], Op.read 1]).2 ∧
        sumReads (runO s.clear [Op.write [1, 2, 3], Op.read 1]).2 ≤
          sumWrites (runO s.clear [Op.write [1, 2, 3], Op.read 1]).2 :=
  c10_available_ledger 2 [Op.write [1, 2, 3], Op.read 1] (by decide)
    (by decide)

end MediaPlayer
